import Mathlib

set_option maxRecDepth 100000

/-!
Verification of the Pixvg pixel-sprite → SVG tracer (src/pixvg.py).

The source program is embedded shallowly:

* `Node2D` objects live in an arena (`List Node2D`); `next`/`prev` references
  are arena indices, `none` meaning Python `None`.
* A `NodeGrid2D` cell holds either a plain node (`Cell.single`) or a
  `VirtualNode2D` (`Cell.virt`: two real-node slots plus the active-slot
  selector `state`, Python `VirtualNode2D.state`).
* Python loops are modelled by structural recursion on an explicit fuel
  argument; fuel exhaustion models divergence.  For the plain walks the fuel
  `arena length + 1` is exact: a deterministic walk that runs longer than the
  number of nodes has revisited a node and therefore never terminates.
* Python `Point2D.__eq__` / `__hash__` compare coordinates only, and are
  inherited by `Node2D` and `VirtualNode2D`; every node comparison of the
  walks below (`point2DEq`) and the visited set of the loop extractor are
  therefore coordinate based.
* Numpy specifics are modelled where they matter: `Point2DSet.add_point`
  indexes the bitmask with possibly negative Python ints, which numpy wraps
  around instead of rejecting.
-/

namespace Pixvg

/-- `Node2D`: a 2D point with `next`/`prev` links (arena indices). -/
structure Node2D where
  x : Nat
  y : Nat
  next : Option Nat := none
  prev : Option Nat := none
deriving DecidableEq

/-- `Point2D.__eq__` (inherited by all node classes): coordinate equality. -/
def point2DEq (a b : Node2D) : Bool := a.x == b.x && a.y == b.y

/-- A grid cell: a plain `Node2D` or a `VirtualNode2D` with two slots and the
active-slot selector `state`. -/
inductive Cell where
  | single (id : Nat)
  | virt (x y : Nat) (id0 id1 : Nat) (state : Nat)
deriving DecidableEq

/-- `VirtualNode2D.current`: the active slot (`real_nodes[state]`). -/
def Cell.currentId : Cell → Nat
  | .single i => i
  | .virt _ _ id0 id1 s => if s = 0 then id0 else id1

def getNode (ar : List Node2D) (i : Nat) : Node2D := ar.getD i ⟨0, 0, none, none⟩

def setNext (ar : List Node2D) (i : Nat) (v : Option Nat) : List Node2D :=
  ar.set i { getNode ar i with next := v }

def setPrev (ar : List Node2D) (i : Nat) (v : Option Nat) : List Node2D :=
  ar.set i { getNode ar i with prev := v }

/-- `NodeGrid2D`: a (width × height) lattice of cells over a node arena. -/
structure NodeGrid2D where
  width : Nat
  height : Nat
  nodes : List Node2D
  cells : List (List Cell)
deriving DecidableEq

/-- `NodeGrid2D.__init__`: all nodes disconnected, cell (x, y) holds node
`y * width + x`. -/
def initGrid (w h : Nat) : NodeGrid2D :=
  { width := w, height := h,
    nodes := ((List.range h).map (fun y =>
      (List.range w).map (fun x => ({ x := x, y := y } : Node2D)))).flatten,
    cells := (List.range h).map (fun y =>
      (List.range w).map (fun x => Cell.single (y * w + x))) }

def cellAt (g : NodeGrid2D) (x y : Nat) : Cell :=
  (g.cells.getD y []).getD x (Cell.single 0)

def setCell (cs : List (List Cell)) (x y : Nat) (c : Cell) : List (List Cell) :=
  cs.set y ((cs.getD y []).set x c)

/-- A fetched node reference: the Python local variables `node_1`/`node_2` of
`connect` hold either a plain `Node2D` or a fetched `VirtualNode2D` cell. -/
inductive NRef where
  | plain (id : Nat)
  | vcell (c : Cell)
deriving DecidableEq

def fetch : Cell → NRef
  | .single i => .plain i
  | c => .vcell c

/-- Dereference: `node.current if type(node) == VirtualNode2D else node`. -/
def NRef.current : NRef → Nat
  | .plain i => i
  | .vcell c => c.currentId

/-- `NodeGrid2D.connect(node_1, node_2)`: an endpoint whose active slot already
has both `next` and `prev` set is replaced in the grid by a virtual node whose
slot 0 adopts the old links (neighbours re-pointed to it) and whose slot 1,
made active, receives the new edge. -/
def connect (g : NodeGrid2D) (x1 y1 x2 y2 : Nat) : NodeGrid2D :=
  let r1 := fetch (cellAt g x1 y1)
  let r2 := fetch (cellAt g x2 y2)
  let n1 := getNode g.nodes r1.current
  let s1 :=
    if n1.prev.isSome && n1.next.isSome then
      let n0id := g.nodes.length
      let n1id := g.nodes.length + 1
      let ar := g.nodes ++
        [{ x := x1, y := y1, next := n1.next, prev := n1.prev }, { x := x1, y := y1 }]
      let ar := setNext ar (n1.prev.getD 0) (some n0id)
      let ar := setPrev ar (n1.next.getD 0) (some n0id)
      let ar := setNext ar n1id (some r2.current)
      ({ g with nodes := ar, cells := setCell g.cells x1 y1 (.virt x1 y1 n0id n1id 1) },
        NRef.plain n1id)
    else (g, r1)
  let g := s1.1
  let r1 := s1.2
  let n2 := getNode g.nodes r2.current
  let s2 :=
    if n2.prev.isSome && n2.next.isSome then
      let n0id := g.nodes.length
      let n1id := g.nodes.length + 1
      let ar := g.nodes ++
        [{ x := x2, y := y2, next := n2.next, prev := n2.prev }, { x := x2, y := y2 }]
      let ar := setNext ar (n2.prev.getD 0) (some n0id)
      let ar := setPrev ar (n2.next.getD 0) (some n0id)
      let ar := setPrev ar n1id (some r1.current)
      ({ g with nodes := ar, cells := setCell g.cells x2 y2 (.virt x2 y2 n0id n1id 1) },
        NRef.plain n1id)
    else (g, r2)
  let g := s2.1
  let r2 := s2.2
  let ar := setNext g.nodes r1.current (some r2.current)
  let ar := setPrev ar r2.current (some r1.current)
  { g with nodes := ar }

/-- A 0/1 pixel bitmask of the given dimensions (`b.val x y` is `bitmask[y][x]`). -/
structure Bitmask where
  width : Nat
  height : Nat
  val : Nat → Nat → Nat

/-- The four Von Neumann neighbour values; `none` models the absent fields of
the `Neighborhood` dataclass for out-of-bounds neighbours. -/
structure Neighborhood where
  top : Option Nat := none
  right : Option Nat := none
  bottom : Option Nat := none
  left : Option Nat := none
deriving DecidableEq

/-- `np_neumann_neighbors` on a bitmask, for in-range (x, y) (the only calls the
program makes); `height, width = matrix.shape - 1` in the source, so the right
neighbour is present iff `x ≠ width - 1`, and so on. -/
def np_neumann_neighbors (b : Bitmask) (x y : Nat) : Neighborhood :=
  { top := if y ≠ 0 then some (b.val x (y - 1)) else none,
    right := if x ≠ b.width - 1 then some (b.val (x + 1) y) else none,
    bottom := if y ≠ b.height - 1 then some (b.val x (y + 1)) else none,
    left := if x ≠ 0 then some (b.val (x - 1) y) else none }

/-- Python `value in (0, None)`. -/
def zeroOrNone : Option Nat → Bool
  | none => true
  | some v => v == 0

/-- The `connect` calls contributed by pixel (x, y) in source order
(top, right, bottom, left); a pixel whose bitmask value is not 1 contributes
none.  Tuples are (x₁, y₁, x₂, y₂) for `connect(node at (x₁,y₁), node at (x₂,y₂))`. -/
def pixelConnects (b : Bitmask) (x y : Nat) : List (Nat × Nat × Nat × Nat) :=
  if b.val x y = 1 then
    let nb := np_neumann_neighbors b x y
    (if zeroOrNone nb.top then [(x, y, x + 1, y)] else []) ++
    (if zeroOrNone nb.right then [(x + 1, y, x + 1, y + 1)] else []) ++
    (if zeroOrNone nb.bottom then [(x + 1, y + 1, x, y + 1)] else []) ++
    (if zeroOrNone nb.left then [(x, y + 1, x, y)] else [])
  else []

/-- All `connect` calls of `trace_bitmask`, in execution order (row-major pixel
scan, each pixel contributing `pixelConnects`). -/
def connectCalls (b : Bitmask) : List (Nat × Nat × Nat × Nat) :=
  ((List.range b.height).map (fun y =>
    ((List.range b.width).map (fun x => pixelConnects b x y)).flatten)).flatten

/-- `trace_bitmask`: build the (W+1)×(H+1) node grid and perform the connect
calls of the per-pixel edge rule. -/
def trace_bitmask (b : Bitmask) : NodeGrid2D :=
  (connectCalls b).foldl (fun g c => connect g c.1 c.2.1 c.2.2.1 c.2.2.2)
    (initGrid (b.width + 1) (b.height + 1))

/-- Result of `extract_node_loops`: the recorded loop origins, the
`NodeLoop.IsNotEnclosed` exception, or divergence of the Python walk. -/
inductive ExtractRes where
  | ok (loops : List Nat)
  | notEnclosed
  | diverged
deriving DecidableEq

/-- The inner walk of `extract_node_loops`: from `cur`, follow `next` until
reaching a node that is Point2D-equal to the origin (coordinates (ox, oy)) or a
node with absent `next`, adding each traversed node to the visited set
(which, like the Python set of nodes, is a set of coordinates).
Returns (visited', final node, returned-to-origin?). -/
def walkVisit (ar : List Node2D) (ox oy : Nat) :
    Nat → Nat → List (Nat × Nat) → Option (List (Nat × Nat) × Nat × Bool)
  | 0, _, _ => none
  | fuel + 1, cur, vis =>
    let n := getNode ar cur
    if n.next.isSome && !point2DEq n { x := ox, y := oy } then
      walkVisit ar ox oy fuel (n.next.getD 0) (vis ++ [(n.x, n.y)])
    else
      some (vis, cur, point2DEq n { x := ox, y := oy })

/-- The coordinates of the object a cell holds (`node.x`, `node.y`). -/
def cellCoords (ar : List Node2D) : Cell → Nat × Nat
  | .single i => ((getNode ar i).x, (getNode ar i).y)
  | .virt x y _ _ _ => (x, y)

/-- The scan of `extract_node_loops` over the flattened cell rows: a cell whose
object has `next` set and whose coordinates are not in the visited set starts a
walk; a walk that returns to the origin records a loop (`NodeLoop(node, True)`,
the final node), otherwise `NodeLoop.IsNotEnclosed` is raised. -/
def extractGo (ar : List Node2D) : List Cell → List (Nat × Nat) → List Nat → ExtractRes
  | [], _, acc => .ok acc
  | c :: rest, vis, acc =>
    let i := (fetch c).current
    let n := getNode ar i
    let xy := cellCoords ar c
    if n.next.isSome && !(vis.contains xy) then
      match walkVisit ar xy.1 xy.2 (ar.length + 1) (n.next.getD 0) vis with
      | none => .diverged
      | some (vis', last, returned) =>
        if returned then extractGo ar rest vis' (acc ++ [last]) else .notEnclosed
    else extractGo ar rest vis acc

def extract_node_loops (g : NodeGrid2D) : ExtractRes :=
  extractGo g.nodes g.cells.flatten [] []

/-- One iteration of `NodeLoop.optimize`: splice out the current node when its
neighbours share an x or a y coordinate, advance to the (pre-splice) successor,
stop when the successor is Point2D-equal to the origin.  `none` models a crash
on an absent link or divergence. -/
def optimizeGo (ox oy : Nat) : Nat → List Node2D → Nat → Option (List Node2D)
  | 0, _, _ => none
  | fuel + 1, ar, cur =>
    let n := getNode ar cur
    match n.next, n.prev with
    | some nx, some pv =>
      let ar' :=
        if (getNode ar nx).x == (getNode ar pv).x || (getNode ar nx).y == (getNode ar pv).y then
          setPrev (setNext ar pv (some nx)) nx (some pv)
        else ar
      if point2DEq (getNode ar' nx) { x := ox, y := oy } then some ar'
      else optimizeGo ox oy fuel ar' nx
    | _, _ => none

/-- `NodeLoop.optimize` on the loop with the given origin, mutating the arena. -/
def optimize (ar : List Node2D) (origin : Nat) : Option (List Node2D) :=
  optimizeGo (getNode ar origin).x (getNode ar origin).y
    ((ar.length + 1) * (ar.length + 1)) ar origin

/-- `SVG._m`. -/
def mStr (s : Nat) (n : Node2D) : String :=
  "M" ++ toString (n.x * s) ++ "," ++ toString (n.y * s)

/-- `SVG._l`. -/
def lStr (s : Nat) (n : Node2D) : String :=
  "L" ++ toString (n.x * s) ++ "," ++ toString (n.y * s)

/-- The `while node.next != origin` loop of `SVG.loop_to_path_data`. -/
def loopDataGo (s : Nat) (ar : List Node2D) (ox oy : Nat) :
    Nat → Nat → String → Option String
  | 0, _, _ => none
  | fuel + 1, cur, acc =>
    match (getNode ar cur).next with
    | none => none
    | some nx =>
      let m := getNode ar nx
      if point2DEq m { x := ox, y := oy } then some (acc ++ "Z")
      else loopDataGo s ar ox oy fuel nx (acc ++ lStr s m)

/-- `SVG.loop_to_path_data` at scale `s`. -/
def loop_to_path_data (s : Nat) (ar : List Node2D) (origin : Nat) : Option String :=
  loopDataGo s ar (getNode ar origin).x (getNode ar origin).y (ar.length + 1) origin
    (mStr s (getNode ar origin))

/-- The ids traversed by a loop walk from `origin` (origin first, stopping
before the node Point2D-equal to the origin); used to state which loop a split
slot belongs to. -/
def walkIdsGo (ar : List Node2D) (ox oy : Nat) : Nat → Nat → List Nat
  | 0, _ => []
  | fuel + 1, cur =>
    match (getNode ar cur).next with
    | none => [cur]
    | some nx =>
      let m := getNode ar nx
      if point2DEq m { x := ox, y := oy } then [cur]
      else cur :: walkIdsGo ar ox oy fuel nx

def loopIds (ar : List Node2D) (origin : Nat) : List Nat :=
  walkIdsGo ar (getNode ar origin).x (getNode ar origin).y (ar.length + 1) origin

/-- The vertex sequence `loop_to_path_data` walks (origin first). -/
def walkPtsGo (ar : List Node2D) (ox oy : Nat) : Nat → Nat → Option (List (Nat × Nat))
  | 0, _ => none
  | fuel + 1, cur =>
    match (getNode ar cur).next with
    | none => none
    | some nx =>
      let m := getNode ar nx
      if point2DEq m { x := ox, y := oy } then some []
      else (walkPtsGo ar ox oy fuel nx).map (fun l => (m.x, m.y) :: l)

def walkPts (ar : List Node2D) (origin : Nat) : Option (List (Nat × Nat)) :=
  (walkPtsGo ar (getNode ar origin).x (getNode ar origin).y (ar.length + 1) origin).map
    (fun l => ((getNode ar origin).x, (getNode ar origin).y) :: l)

/-- Rendering of a vertex list as SVG path data at scale `s`:
`M` for the first vertex, `L` for the rest, closed with `Z`. -/
def renderPath (s : Nat) : List (Nat × Nat) → String
  | [] => "Z"
  | p :: rest =>
    "M" ++ toString (p.1 * s) ++ "," ++ toString (p.2 * s) ++
      rest.foldl (fun acc q => acc ++ "L" ++ toString (q.1 * s) ++ "," ++ toString (q.2 * s)) "" ++
      "Z"

end Pixvg

namespace Pixvg

/-- Lower-case hex digit (Python `%x`). -/
def hexDigitChar (d : Nat) : Char := if d < 10 then Char.ofNat (48 + d) else Char.ofNat (87 + d)

/-- Python `f"{n:02x}"` for n ≤ 255 (the `Color` constructor rejects anything
larger, so this is the whole domain used). -/
def hex2 (n : Nat) : String := String.mk [hexDigitChar (n / 16), hexDigitChar (n % 16)]

/-- RGBA `Color`. -/
structure Color where
  r : Nat
  g : Nat
  b : Nat
  a : Nat
deriving DecidableEq

/-- The component check of `Color.__init__` (a `ValueError` otherwise). -/
def Color.valid (c : Color) : Bool := c.r ≤ 255 && c.g ≤ 255 && c.b ≤ 255 && c.a ≤ 255

/-- `Color.to_hex`: `#RRGGBBAA`, lower case. -/
def Color.to_hex (c : Color) : String := "#" ++ hex2 c.r ++ hex2 c.g ++ hex2 c.b ++ hex2 c.a

/-- An RGBA pixel buffer of known dimensions. -/
structure Image where
  width : Nat
  height : Nat
  pix : Nat → Nat → Color

/-- `Color2DRegion` as the pipeline uses it: a colour plus the point-set bitmask
(the `data` set is never read downstream of construction). -/
structure Color2DRegion where
  color : Color
  width : Nat
  height : Nat
  bitmask : Nat → Nat → Nat

/-- Row-major pixel scan order: `for y, row in enumerate(m): for x, v in enumerate(row)`. -/
def rowMajor (w h : Nat) : List (Nat × Nat) :=
  ((List.range h).map (fun y => (List.range w).map (fun x => (x, y)))).flatten

def emptyRegion (c : Color) (w h : Nat) : Color2DRegion := ⟨c, w, h, fun _ _ => 0⟩

/-- `Point2DSet.add_point` for the in-range coordinates the partitioner and the
cluster grouping supply: set the bitmask bit. -/
def regionAdd (r : Color2DRegion) (x y : Nat) : Color2DRegion :=
  { r with bitmask := fun x' y' => if x' = x && y' = y then 1 else r.bitmask x' y' }

/-- Update the entry of an insertion-ordered dict (assoc list) in place. -/
def updateAssoc {κ α : Type} [BEq κ] (regs : List (κ × α)) (k : κ) (f : α → α) :
    List (κ × α) :=
  match regs with
  | [] => []
  | (k', r) :: rest => if k' == k then (k', f r) :: rest else (k', r) :: updateAssoc rest k f

def containsKey {κ α : Type} [BEq κ] (regs : List (κ × α)) (k : κ) : Bool :=
  regs.any (fun p => p.1 == k)

/-- One pixel step of `get_distinct_color_regions`: reject an invalid colour
(`Color.__init__` raises), insert a fresh region on a new hex key, add the
point to the keyed region. -/
def regionsStep (img : Image) (st : Option (List (String × Color2DRegion)))
    (p : Nat × Nat) : Option (List (String × Color2DRegion)) :=
  st.bind (fun regs =>
    let c := img.pix p.1 p.2
    if c.valid then
      let k := c.to_hex
      let regs :=
        if containsKey regs k then regs else regs ++ [(k, emptyRegion c img.width img.height)]
      some (updateAssoc regs k (fun r => regionAdd r p.1 p.2))
    else none)

/-- `get_distinct_color_regions`: the insertion-ordered dict from colour hex to
region, one entry per distinct colour, every pixel added to its colour's region. -/
def get_distinct_color_regions (img : Image) : Option (List (String × Color2DRegion)) :=
  (rowMajor img.width img.height).foldl (regionsStep img) (some [])

def lget (ls : List (List Nat)) (x y : Nat) : Nat := (ls.getD y []).getD x 0

def lset (ls : List (List Nat)) (x y v : Nat) : List (List Nat) :=
  ls.set y ((ls.getD y []).set x v)

def zerosM (w h : Nat) : List (List Nat) :=
  (List.range h).map (fun _ => (List.range w).map (fun _ => 0))

/-- The `while stack` loop of `find_connected_neumann_regions`: pop (Python
pops the end of the list; the head here, with pushes mirrored), skip if already
labelled, else label and push the 4-neighbours whose bitmask value is 1. -/
def fillLoop (b : Bitmask) (id : Nat) :
    Nat → List (Nat × Nat) → List (List Nat) → Option (List (List Nat))
  | 0, _, _ => none
  | _, [], labels => some labels
  | fuel + 1, (x, y) :: stack, labels =>
    if lget labels x y ≠ 0 then fillLoop b id fuel stack labels
    else
      let labels := lset labels x y id
      let nb := np_neumann_neighbors b x y
      let stack :=
        (if nb.left == some 1 then [(x - 1, y)] else []) ++
        (if nb.bottom == some 1 then [(x, y + 1)] else []) ++
        (if nb.right == some 1 then [(x + 1, y)] else []) ++
        (if nb.top == some 1 then [(x, y - 1)] else []) ++ stack
      fillLoop b id fuel stack labels

/-- The outer row-major scan of `find_connected_neumann_regions`: seed a flood
fill at every still-unlabelled 1-pixel, incrementing the region id after each
fill.  The fill fuel bounds the stack work (each labelling pushes at most 4)
and is never exhausted on these finite grids. -/
def findLoop (b : Bitmask) : List (Nat × Nat) → List (List Nat) → Nat → Option (List (List Nat))
  | [], labels, _ => some labels
  | (x, y) :: rest, labels, id =>
    if b.val x y = 1 && lget labels x y = 0 then
      match fillLoop b id (5 * (b.width * b.height) + 5) [(x, y)] labels with
      | none => none
      | some labels' => findLoop b rest labels' (id + 1)
    else findLoop b rest labels id

def find_connected_neumann_regions (b : Bitmask) : Option (List (List Nat)) :=
  findLoop b (rowMajor b.width b.height) (zerosM b.width b.height) 1

/-- One pixel step of the cluster grouping in `split_into_clusters`. -/
def clustersStep (region : Color2DRegion) (labels : List (List Nat))
    (cl : List (Nat × Color2DRegion)) (p : Nat × Nat) : List (Nat × Color2DRegion) :=
  if lget labels p.1 p.2 = 0 then cl
  else
    updateAssoc
      (if containsKey cl (lget labels p.1 p.2) then cl
       else cl ++ [(lget labels p.1 p.2, emptyRegion region.color region.width region.height)])
      (lget labels p.1 p.2) (fun r => regionAdd r p.1 p.2)

/-- The insertion-ordered dict from cluster label to cluster region. -/
def clusterAssoc (region : Color2DRegion) (labels : List (List Nat)) :
    List (Nat × Color2DRegion) :=
  (rowMajor region.width region.height).foldl (clustersStep region labels) []

/-- `split_into_clusters`: label the region's bitmask, then group pixels by label. -/
def split_into_clusters (region : Color2DRegion) : Option (List Color2DRegion) :=
  (find_connected_neumann_regions ⟨region.width, region.height, region.bitmask⟩).map
    (fun labels => (clusterAssoc region labels).map Prod.snd)

/-- The per-cluster body of the driver loop: trace the bitmask, extract the
loops, `optimize` each loop in order (mutating the shared arena), then join the
per-loop path data and pair it with the cluster's hex colour. -/
def clusterPathData (scale : Nat) (cluster : Color2DRegion) : Option (String × String) :=
  match extract_node_loops (trace_bitmask ⟨cluster.width, cluster.height, cluster.bitmask⟩) with
  | .ok loops =>
    (loops.foldl (fun oar o => oar.bind (fun ar => optimize ar o))
        (some (trace_bitmask ⟨cluster.width, cluster.height, cluster.bitmask⟩).nodes)).bind
      (fun ar =>
        (loops.foldl (fun os o => os.bind (fun s => (loop_to_path_data scale ar o).map (s ++ ·)))
          (some "")).map (fun dta => (dta, cluster.color.to_hex)))
  | _ => none

/-- The per-image pipeline of `main`, down to the list of `SVGPath`
(path data, fill) pairs: partition by colour, keep the alpha-255 regions, split
each into clusters, emit one path per cluster in order. -/
def pipelinePaths (img : Image) (scale : Nat) : Option (List (String × String)) :=
  (get_distinct_color_regions img).bind (fun regs =>
    ((((regs.map Prod.snd).filter (fun r => r.color.a == 255)).foldl (fun ocl r =>
        ocl.bind (fun cl => (split_into_clusters r).map (cl ++ ·))) (some [])).bind
      (fun clusters =>
        clusters.foldl (fun ops c =>
          ops.bind (fun ps => (clusterPathData scale c).map (fun p => ps ++ [p]))) (some []))))

/-- `Point2D` proper (signed coordinates, as Python ints). -/
structure Point2D where
  x : Int
  y : Int
deriving DecidableEq

/-- `Point2DSet`: dimensions, the numpy `(height, width)` int8 bitmask, and the
`data` set of points (Python set membership is `Point2D.__eq__`). -/
structure Point2DSet where
  width : Nat
  height : Nat
  bitmask : Nat → Nat → Nat
  data : List Point2D

def emptyPoint2DSet (w h : Nat) : Point2DSet := ⟨w, h, fun _ _ => 0, []⟩

/-- Numpy integer indexing into an axis of length `n`: indices in [-n, n) are
accepted, negative ones wrapping to `i + n`; anything else raises `IndexError`. -/
def npIndexValid (n : Nat) (i : Int) : Bool := decide (-(n : Int) ≤ i) && decide (i < (n : Int))

def npIndex (n : Nat) (i : Int) : Nat := (if i < 0 then i + (n : Int) else i).toNat

/-- `Point2DSet.add_point`: `bitmask[point.y, point.x] = 1` then `data.add(point)`;
only an `IndexError` from the numpy assignment is turned into a `ValueError`
(`none` here). -/
def add_point (s : Point2DSet) (p : Point2D) : Option Point2DSet :=
  if npIndexValid s.height p.y && npIndexValid s.width p.x then
    some { s with
      bitmask := fun x y =>
        if x = npIndex s.width p.x && y = npIndex s.height p.y then 1 else s.bitmask x y,
      data := if s.data.contains p then s.data else s.data ++ [p] }
  else none

-- Concrete inputs used by the counterexample and scenario theorems.

/-- 2×2 bitmask with exactly the diagonal pixels (0,0) and (1,1) set. -/
def diag2 : Bitmask :=
  ⟨2, 2, fun x y => if (x = 0 && y = 0) || (x = 1 && y = 1) then 1 else 0⟩

/-- 3×3 ring: all pixels set except the centre. -/
def ring3 : Bitmask :=
  ⟨3, 3, fun x y => if x = 1 && y = 1 then 0 else 1⟩

/-- 3×3 cluster bitmask with a one-pixel hole at (1,1) that touches the outside
diagonally through the empty corner pixel (2,2). -/
def holeTouch3 : Bitmask :=
  ⟨3, 3, fun x y => if (x = 1 && y = 1) || (x = 2 && y = 2) then 0 else 1⟩

def blackOpaque : Color := ⟨0, 0, 0, 255⟩

def transparentColor : Color := ⟨0, 0, 0, 0⟩

/-- 3×3 image whose 8 border pixels have colour `c` and whose centre has colour `t`. -/
def ringImage (c t : Color) : Image :=
  ⟨3, 3, fun x y => if x = 1 && y = 1 then t else c⟩

/-- The 3×3 image of the `holeTouch3` cluster: opaque black everywhere except
the transparent pixels (1,1) and (2,2). -/
def holeTouchImage : Image :=
  ⟨3, 3, fun x y =>
    if (x = 1 && y = 1) || (x = 2 && y = 2) then transparentColor else blackOpaque⟩

/-- The colour-region value `get_distinct_color_regions` accumulates for the 8
ring pixels of `ringImage`, in scan order. -/
def ringChain (c : Color) : Color2DRegion :=
  regionAdd (regionAdd (regionAdd (regionAdd (regionAdd (regionAdd (regionAdd
    (regionAdd (emptyRegion c 3 3) 0 0) 1 0) 2 0) 0 1) 2 1) 0 2) 1 2) 2 2

/-- Replace a region's colour, keeping its dimensions and bitmask. -/
def recolorR (col : Color) (r : Color2DRegion) : Color2DRegion :=
  ⟨col, r.width, r.height, r.bitmask⟩

/-- The 5-node loop (0,0) → (2,0) → (0,0) → (0,2) → (0,4) → back. -/
def c6Arena : List Node2D :=
  [⟨0, 0, some 1, some 4⟩, ⟨2, 0, some 2, some 0⟩, ⟨0, 0, some 3, some 1⟩,
   ⟨0, 2, some 4, some 2⟩, ⟨0, 4, some 0, some 3⟩]

def coordAt (ps : List (Nat × Nat)) (i : Nat) : Nat × Nat := ps.getD i (0, 0)

def succIdx (n j : Nat) : Nat := if j = n - 1 then 0 else j + 1

def shareB (p q : Nat × Nat) : Bool := p.1 == q.1 || p.2 == q.2

def mkLoop (ps : List (Nat × Nat)) : List Node2D :=
  (List.range ps.length).map (fun i =>
    ⟨(coordAt ps i).1, (coordAt ps i).2, some (succIdx ps.length i),
     some (if i = 0 then ps.length - 1 else i - 1)⟩)

def axSh : Bool → (Nat × Nat) → (Nat × Nat) → Prop
  | true, p, q => p.1 = q.1
  | false, p, q => p.2 = q.2

def fwdLinked (ar : List Node2D) : List Nat → Prop
  | u :: v :: rest =>
    (getNode ar u).next = some v ∧ (getNode ar v).prev = some u ∧ fwdLinked ar (v :: rest)
  | _ => True

def revLinked (ar : List Node2D) : List Nat → Prop
  | u :: v :: rest =>
    (getNode ar v).next = some u ∧ (getNode ar u).prev = some v ∧ revLinked ar (v :: rest)
  | _ => True

def AxChain : List (Nat × Nat) → List Bool → Prop
  | p :: q :: rest, A :: axes => (axSh A p q ∧ ¬axSh (!A) p q) ∧ AxChain (q :: rest) axes
  | [_], [] => True
  | [], [] => True
  | _, _ => False

def noCornerSplice : List (Nat × Nat) → Prop
  | x :: y :: z :: rest => shareB z x = false ∧ noCornerSplice (y :: z :: rest)
  | _ => True

def A0 (ps : List (Nat × Nat)) : Bool := (coordAt ps 0).1 == (coordAt ps 1).1

/-- The state invariant of the first `optimize` pass, about to process index `j`
with last kept node `a` and kept chain `j :: a :: rest` (frontier first). -/
structure Inv1 (ps : List (Nat × Nat)) (ar : List Node2D) (j a : Nat) (rest : List Nat)
    (axes : List Bool) : Prop where
  lenAr : ar.length = ps.length
  coords : ∀ m, (getNode ar m).x = (coordAt ps m).1 ∧ (getNode ar m).y = (coordAt ps m).2
  jpos : 1 ≤ j
  jlt : j < ps.length
  linked : revLinked ar (j :: a :: rest)
  lastz : (a :: rest).getLast? = some 0
  desc : (j :: a :: rest).Chain' (fun x y => x > y)
  lenL : (j :: a :: rest).length ≤ j + 1
  untN : ∀ m, j ≤ m → m < ps.length → (getNode ar m).next = some (succIdx ps.length m)
  untP : ∀ m, j < m → m < ps.length → (getNode ar m).prev = some (m - 1)
  pz : (getNode ar 0).prev = some (ps.length - 1)
  ax : AxChain ((j :: a :: rest).map (coordAt ps)) axes
  alt : axes.Chain' (fun x y => y = !x)
  axbot : axes.getLast? = some (A0 ps)

/-- The facts holding of the arena after the first pass: the kept cycle
`0 :: LF` (reverse walk order) with alternating strict axes. -/
structure Fin1 (ps : List (Nat × Nat)) (ar : List Node2D) (LF : List Nat)
    (axesF : List Bool) : Prop where
  lenAr : ar.length = ps.length
  coords : ∀ m, (getNode ar m).x = (coordAt ps m).1 ∧ (getNode ar m).y = (coordAt ps m).2
  linked : revLinked ar (0 :: LF)
  lastz : LF.getLast? = some 0
  mids : ∀ m ∈ LF.dropLast, 0 < m ∧ m < ps.length
  lenLF : LF.length ≤ ps.length
  ax : AxChain ((0 :: LF).map (coordAt ps)) axesF
  alt : axesF.Chain' (fun x y => y = !x)
  axbot : axesF.getLast? = some (A0 ps)
  axhead : axesF.head? = some (!A0 ps)

/-- A 5-node rectangle loop with one collinear midpoint (1,0) on its bottom
edge; the first pass splices the midpoint out and the second pass is the
identity, exercising the amended C6 theorem non-trivially. -/
def rectMidPs : List (Nat × Nat) := [(0, 0), (1, 0), (2, 0), (2, 1), (0, 1)]

end Pixvg

namespace Pixvg

/-- C1, counterexample.  In the NodeGrid built from `holeTouch3` — a 4-connected
cluster bitmask (see `c4_hole_loop_merged`) — the corner (2,2) is a split vertex
with slots 16 and 17, yet the two slots are Point2D-equal (graph-walk equality
compares coordinates only), and the extractor returns a single loop that
contains both slots, not two different loops. -/
theorem c1_split_slots_counterexample :
    cellAt (trace_bitmask holeTouch3) 2 2 = Cell.virt 2 2 16 17 1 ∧
    point2DEq (getNode (trace_bitmask holeTouch3).nodes 16)
        (getNode (trace_bitmask holeTouch3).nodes 17) = true ∧
    extract_node_loops (trace_bitmask holeTouch3) = .ok [0] ∧
    16 ∈ loopIds (trace_bitmask holeTouch3).nodes 0 ∧
    17 ∈ loopIds (trace_bitmask holeTouch3).nodes 0 := by
  decide

/-- C1, amended.  The two slots of a split vertex are Point2D-equal (node
equality and hashing compare coordinates only), so they are one identity for
graph-walk equality and for the visited set; on the 2×2 bitmask with exactly
the diagonal pixels (0,0) and (1,1) set, the extractor nevertheless discovers
exactly two loops, one containing each slot of the split vertex at (1,1). -/
theorem c1_amended_coordinate_equality :
    cellAt (trace_bitmask diag2) 1 1 = Cell.virt 1 1 9 10 1 ∧
    point2DEq (getNode (trace_bitmask diag2).nodes 9)
        (getNode (trace_bitmask diag2).nodes 10) = true ∧
    extract_node_loops (trace_bitmask diag2) = .ok [0, 5] ∧
    9 ∈ loopIds (trace_bitmask diag2).nodes 0 ∧
    10 ∈ loopIds (trace_bitmask diag2).nodes 5 ∧
    10 ∉ loopIds (trace_bitmask diag2).nodes 0 := by
  decide

/-- C4: the code fails the claimed winding invariant.  `holeTouch3` is a single
4-connected cluster (the labeler gives every set pixel label 1) containing the
one-pixel hole (1,1), but the extractor returns one single loop — outer contour
and hole boundary merged through the split vertex at (2,2) — instead of an
additional counter-clockwise hole loop, and the pipeline emits one crossed
sub-path instead of two oppositely wound sub-paths. -/
theorem c4_hole_loop_merged :
    find_connected_neumann_regions holeTouch3 = some [[1, 1, 1], [1, 0, 1], [1, 1, 0]] ∧
    extract_node_loops (trace_bitmask holeTouch3) = .ok [0] ∧
    pipelinePaths holeTouchImage 1 =
      some [("M0,0L3,0L3,2L2,2L2,1L1,1L1,2L2,2L2,3L0,3Z", "#000000ff")] := by
  decide

/-- C10: the code fails the claimed bounds check.  Adding the out-of-range
point (-1, 0) to a 1×1 `Point2DSet` does not raise: numpy wraps the negative
index, the bitmask cell (0, 0) is set, and the point is silently recorded in
the data set. -/
theorem c10_negative_point_recorded :
    (add_point (emptyPoint2DSet 1 1) { x := -1, y := 0 }).map
        (fun s => (s.data, s.bitmask 0 0)) =
      some ([({ x := -1, y := 0 } : Point2D)], 1) := by
  decide

end Pixvg

namespace Pixvg

theorem mem_connectCalls {b : Bitmask} {c : Nat × Nat × Nat × Nat} :
    c ∈ connectCalls b ↔ ∃ y, y < b.height ∧ ∃ x, x < b.width ∧ c ∈ pixelConnects b x y := by
  simp only [connectCalls, List.mem_flatten, List.mem_map, List.mem_range]
  constructor
  · rintro ⟨l, ⟨y, hy, rfl⟩, hc⟩
    rcases List.mem_flatten.mp hc with ⟨l2, hl2, hc2⟩
    rcases List.mem_map.mp hl2 with ⟨x, hx, rfl⟩
    exact ⟨y, hy, x, List.mem_range.mp hx, hc2⟩
  · rintro ⟨y, hy, x, hx, hc⟩
    refine ⟨_, ⟨y, hy, rfl⟩, List.mem_flatten.mpr ⟨_, List.mem_map.mpr ⟨x, List.mem_range.mpr hx, rfl⟩, hc⟩⟩

theorem mem_pixelConnects {b : Bitmask} {x y : Nat} {c : Nat × Nat × Nat × Nat} :
    c ∈ pixelConnects b x y ↔
      b.val x y = 1 ∧
      ((c = (x, y, x + 1, y) ∧ zeroOrNone (np_neumann_neighbors b x y).top = true) ∨
       (c = (x + 1, y, x + 1, y + 1) ∧ zeroOrNone (np_neumann_neighbors b x y).right = true) ∨
       (c = (x + 1, y + 1, x, y + 1) ∧ zeroOrNone (np_neumann_neighbors b x y).bottom = true) ∨
       (c = (x, y + 1, x, y) ∧ zeroOrNone (np_neumann_neighbors b x y).left = true)) := by
  unfold pixelConnects
  split
  · next hval =>
    cases h1 : zeroOrNone (np_neumann_neighbors b x y).top <;>
    cases h2 : zeroOrNone (np_neumann_neighbors b x y).right <;>
    cases h3 : zeroOrNone (np_neumann_neighbors b x y).bottom <;>
    cases h4 : zeroOrNone (np_neumann_neighbors b x y).left <;>
    simp [h1, h2, h3, h4, hval]
  · next hval => simp [hval]

theorem zeroOrNone_top {b : Bitmask} {x y : Nat} :
    zeroOrNone (np_neumann_neighbors b x y).top = true ↔ (y = 0 ∨ b.val x (y - 1) = 0) := by
  by_cases h : y = 0 <;> simp [np_neumann_neighbors, zeroOrNone, h]

theorem zeroOrNone_right {b : Bitmask} {x y : Nat} :
    zeroOrNone (np_neumann_neighbors b x y).right = true ↔
      (x = b.width - 1 ∨ b.val (x + 1) y = 0) := by
  by_cases h : x = b.width - 1 <;> simp [np_neumann_neighbors, zeroOrNone, h]

theorem zeroOrNone_bottom {b : Bitmask} {x y : Nat} :
    zeroOrNone (np_neumann_neighbors b x y).bottom = true ↔
      (y = b.height - 1 ∨ b.val x (y + 1) = 0) := by
  by_cases h : y = b.height - 1 <;> simp [np_neumann_neighbors, zeroOrNone, h]

theorem zeroOrNone_left {b : Bitmask} {x y : Nat} :
    zeroOrNone (np_neumann_neighbors b x y).left = true ↔ (x = 0 ∨ b.val (x - 1) y = 0) := by
  by_cases h : x = 0 <;> simp [np_neumann_neighbors, zeroOrNone, h]

/-- C2: the per-pixel edge rule.  For every bitmask and in-range pixel (x, y),
the builder's call sequence contains the edge TL(x,y)→TR(x+1,y) iff the pixel
is 1 and its top neighbour is 0 or out of bounds, and correspondingly for the
right, bottom and left neighbours (clockwise rule); a pixel whose bitmask value
is not 1 contributes no edges at all. -/
theorem c2_per_pixel_edge_rule (b : Bitmask) (x y : Nat)
    (hx : x < b.width) (hy : y < b.height) :
    (((x, y, x + 1, y) ∈ connectCalls b ↔
        b.val x y = 1 ∧ (y = 0 ∨ b.val x (y - 1) = 0)) ∧
     ((x + 1, y, x + 1, y + 1) ∈ connectCalls b ↔
        b.val x y = 1 ∧ (x + 1 = b.width ∨ b.val (x + 1) y = 0)) ∧
     ((x + 1, y + 1, x, y + 1) ∈ connectCalls b ↔
        b.val x y = 1 ∧ (y + 1 = b.height ∨ b.val x (y + 1) = 0)) ∧
     ((x, y + 1, x, y) ∈ connectCalls b ↔
        b.val x y = 1 ∧ (x = 0 ∨ b.val (x - 1) y = 0))) ∧
    (b.val x y ≠ 1 → pixelConnects b x y = []) := by
  refine ⟨⟨?_, ?_, ?_, ?_⟩, fun hv => by simp [pixelConnects, hv]⟩
  · constructor
    · intro hmem
      rcases mem_connectCalls.mp hmem with ⟨y', _, x', _, hc⟩
      rcases (mem_pixelConnects.mp hc) with ⟨hval, hcase⟩
      rcases hcase with ⟨he, ht⟩ | ⟨he, _⟩ | ⟨he, _⟩ | ⟨he, _⟩ <;>
        simp only [Prod.mk.injEq] at he <;>
        [skip; omega; omega; omega]
      obtain ⟨rfl, rfl, -, -⟩ := he
      exact ⟨hval, zeroOrNone_top.mp ht⟩
    · rintro ⟨hval, hcond⟩
      exact mem_connectCalls.mpr ⟨y, hy, x, hx,
        mem_pixelConnects.mpr ⟨hval, Or.inl ⟨rfl, zeroOrNone_top.mpr hcond⟩⟩⟩
  · constructor
    · intro hmem
      rcases mem_connectCalls.mp hmem with ⟨y', hy', x', hx', hc⟩
      rcases (mem_pixelConnects.mp hc) with ⟨hval, hcase⟩
      rcases hcase with ⟨he, _⟩ | ⟨he, ht⟩ | ⟨he, _⟩ | ⟨he, _⟩ <;>
        simp only [Prod.mk.injEq] at he <;>
        [omega; skip; omega; omega]
      obtain ⟨h1, rfl, -, -⟩ := he
      obtain rfl : x' = x := by omega
      refine ⟨hval, ?_⟩
      rcases zeroOrNone_right.mp ht with h | h
      · left; omega
      · right; exact h
    · rintro ⟨hval, hcond⟩
      refine mem_connectCalls.mpr ⟨y, hy, x, hx,
        mem_pixelConnects.mpr ⟨hval, Or.inr (Or.inl ⟨rfl, zeroOrNone_right.mpr ?_⟩)⟩⟩
      rcases hcond with h | h
      · left; omega
      · right; exact h
  · constructor
    · intro hmem
      rcases mem_connectCalls.mp hmem with ⟨y', hy', x', hx', hc⟩
      rcases (mem_pixelConnects.mp hc) with ⟨hval, hcase⟩
      rcases hcase with ⟨he, _⟩ | ⟨he, _⟩ | ⟨he, ht⟩ | ⟨he, _⟩ <;>
        simp only [Prod.mk.injEq] at he <;>
        [omega; omega; skip; omega]
      obtain ⟨h1, h2, -, -⟩ := he
      obtain rfl : x' = x := by omega
      obtain rfl : y' = y := by omega
      refine ⟨hval, ?_⟩
      rcases zeroOrNone_bottom.mp ht with h | h
      · left; omega
      · right; exact h
    · rintro ⟨hval, hcond⟩
      refine mem_connectCalls.mpr ⟨y, hy, x, hx,
        mem_pixelConnects.mpr ⟨hval, Or.inr (Or.inr (Or.inl ⟨rfl, zeroOrNone_bottom.mpr ?_⟩))⟩⟩
      rcases hcond with h | h
      · left; omega
      · right; exact h
  · constructor
    · intro hmem
      rcases mem_connectCalls.mp hmem with ⟨y', hy', x', hx', hc⟩
      rcases (mem_pixelConnects.mp hc) with ⟨hval, hcase⟩
      rcases hcase with ⟨he, _⟩ | ⟨he, _⟩ | ⟨he, _⟩ | ⟨he, ht⟩ <;>
        simp only [Prod.mk.injEq] at he <;>
        [omega; omega; omega; skip]
      obtain ⟨rfl, h2, -, -⟩ := he
      obtain rfl : y' = y := by omega
      exact ⟨hval, zeroOrNone_left.mp ht⟩
    · rintro ⟨hval, hcond⟩
      exact mem_connectCalls.mpr ⟨y, hy, x, hx,
        mem_pixelConnects.mpr ⟨hval, Or.inr (Or.inr (Or.inr ⟨rfl, zeroOrNone_left.mpr hcond⟩))⟩⟩

/-- C2 witness: the rule evaluated on the `holeTouch3` bitmask at pixel (2, 1). -/
theorem c2_per_pixel_edge_rule_witness :
    (((2, 1, 3, 1) ∈ connectCalls holeTouch3 ↔
        holeTouch3.val 2 1 = 1 ∧ (1 = 0 ∨ holeTouch3.val 2 0 = 0)) ∧
     ((3, 1, 3, 2) ∈ connectCalls holeTouch3 ↔
        holeTouch3.val 2 1 = 1 ∧ (3 = holeTouch3.width ∨ holeTouch3.val 3 1 = 0)) ∧
     ((3, 2, 2, 2) ∈ connectCalls holeTouch3 ↔
        holeTouch3.val 2 1 = 1 ∧ (2 = holeTouch3.height ∨ holeTouch3.val 2 2 = 0)) ∧
     ((2, 2, 2, 1) ∈ connectCalls holeTouch3 ↔
        holeTouch3.val 2 1 = 1 ∧ (2 = 0 ∨ holeTouch3.val 1 1 = 0))) ∧
    (holeTouch3.val 2 1 ≠ 1 → pixelConnects holeTouch3 2 1 = []) :=
  c2_per_pixel_edge_rule holeTouch3 2 1 (by decide) (by decide)

end Pixvg


namespace Pixvg

theorem string_foldl_init {α : Type} (g : α → String) :
    ∀ (l : List α) (a : String),
      l.foldl (fun acc q => acc ++ g q) a = a ++ l.foldl (fun acc q => acc ++ g q) ""
  | [], a => by rw [List.foldl_nil, List.foldl_nil, String.append_empty]
  | q :: l, a => by
    rw [List.foldl_cons, List.foldl_cons, string_foldl_init g l (a ++ g q),
      string_foldl_init g l ("" ++ g q), String.empty_append, String.append_assoc]

theorem loopDataGo_eq (s : Nat) (ar : List Node2D) (ox oy : Nat) :
    ∀ (fuel cur : Nat) (acc : String),
      loopDataGo s ar ox oy fuel cur acc =
        (walkPtsGo ar ox oy fuel cur).map
          (fun pts =>
            acc ++
              (pts.foldl
                (fun a q => a ++ ("L" ++ toString (q.1 * s) ++ "," ++ toString (q.2 * s))) "" ++
                "Z")) := by
  intro fuel
  induction fuel with
  | zero => intro cur acc; rfl
  | succ n ih =>
    intro cur acc
    rw [loopDataGo, walkPtsGo]
    cases h : (getNode ar cur).next with
    | none => rfl
    | some nx =>
      by_cases hp : point2DEq (getNode ar nx) { x := ox, y := oy } = true
      · simp only [hp, if_true, Option.map_some', List.foldl_nil, String.empty_append]
      · simp only [Bool.not_eq_true] at hp
        simp only [hp, Bool.false_eq_true, if_false, ih, Option.map_map]
        cases walkPtsGo ar ox oy n nx with
        | none => rfl
        | some pts =>
          simp only [Option.map_some', Option.some.injEq, Function.comp_apply, List.foldl_cons]
          rw [string_foldl_init _ pts
              (("" : String) ++
                ("L" ++ toString ((getNode ar nx).x * s) ++ "," ++ toString ((getNode ar nx).y * s))),
            String.empty_append]
          show acc ++ lStr s (getNode ar nx) ++ _ = _
          simp only [lStr, String.append_assoc]

theorem loop_to_path_data_eq (s : Nat) (ar : List Node2D) (o : Nat) :
    loop_to_path_data s ar o = (walkPts ar o).map (renderPath s) := by
  unfold loop_to_path_data walkPts
  rw [loopDataGo_eq]
  cases walkPtsGo ar (getNode ar o).x (getNode ar o).y (ar.length + 1) o with
  | none => rfl
  | some pts =>
    simp only [Option.map_some', Option.some.injEq, mStr, renderPath]
    simp only [String.append_assoc]

/-- C7: scale linearity.  If the emitter produces path data for a loop at scale
1, it walks the same vertex sequence at any scale s > 1, and the two path-data
strings are the renderings of that one vertex list with every coordinate
multiplied by 1 and by s respectively — so each coordinate appearing at scale s
is s times the coordinate emitted at scale 1. -/
theorem c7_scale_linearity (ar : List Node2D) (o s : Nat) (_hs : 1 < s) (d1 : String)
    (h : loop_to_path_data 1 ar o = some d1) :
    ∃ pts, d1 = renderPath 1 pts ∧ loop_to_path_data s ar o = some (renderPath s pts) := by
  rw [loop_to_path_data_eq] at h
  rw [loop_to_path_data_eq]
  cases hw : walkPts ar o with
  | none => rw [hw] at h; cases h
  | some pts =>
    rw [hw] at h
    simp only [Option.map_some', Option.some.injEq] at h
    exact ⟨pts, h.symm, by simp⟩

/-- C7 witness: the single-pixel loop of `diag2` at scales 1 and 2. -/
theorem c7_scale_linearity_witness :
    (1 < 2 ∧
      loop_to_path_data 1 (trace_bitmask diag2).nodes 0 = some "M0,0L1,0L1,1L0,1Z") ∧
    ∃ pts, "M0,0L1,0L1,1L0,1Z" = renderPath 1 pts ∧
      loop_to_path_data 2 (trace_bitmask diag2).nodes 0 = some (renderPath 2 pts) :=
  ⟨⟨by decide, by decide⟩,
    c7_scale_linearity (trace_bitmask diag2).nodes 0 2 (by decide) _ (by decide)⟩

end Pixvg

namespace Pixvg

/-- The visited set accumulated by the extractor's scan over a list of cells,
`none` when a walk in that prefix failed or diverged. -/
def scanVis (ar : List Node2D) : List Cell → List (Nat × Nat) → Option (List (Nat × Nat))
  | [], vis => some vis
  | c :: rest, vis =>
    if (getNode ar (fetch c).current).next.isSome && !(vis.contains (cellCoords ar c)) then
      match walkVisit ar (cellCoords ar c).1 (cellCoords ar c).2 (ar.length + 1)
          ((getNode ar (fetch c).current).next.getD 0) vis with
      | some (vis', _, true) => scanVis ar rest vis'
      | _ => none
    else scanVis ar rest vis

theorem walkVisit_false_next_none (ar : List Node2D) (ox oy : Nat) :
    ∀ (fuel cur : Nat) (vis vis' : List (Nat × Nat)) (last : Nat),
      walkVisit ar ox oy fuel cur vis = some (vis', last, false) →
      (getNode ar last).next = none := by
  intro fuel
  induction fuel with
  | zero => intro cur vis vis' last h; cases h
  | succ n ih =>
    intro cur vis vis' last h
    rw [walkVisit] at h
    split at h
    · exact ih _ _ _ _ h
    · next hc =>
      simp only [Option.some.injEq, Prod.mk.injEq] at h
      obtain ⟨-, rfl, hpe⟩ := h
      rw [hpe] at hc
      simp only [Bool.not_false, Bool.and_true, Bool.not_eq_true] at hc
      exact Option.not_isSome_iff_eq_none.mp (fun hs => by rw [hs] at hc; cases hc)

end Pixvg

namespace Pixvg

/-- Where the scan can fail: there is a split of the cell list such that the
scan succeeds on the prefix, the pivot cell starts a walk (its object's `next`
is set and its coordinates are unvisited), and that walk stops at a node with
absent `next` that is not Point2D-equal to the origin. -/
def ScanFailure (ar : List Node2D) (cells : List Cell) (vis : List (Nat × Nat)) : Prop :=
  ∃ pre c post, cells = pre ++ c :: post ∧
    ∃ vis1, scanVis ar pre vis = some vis1 ∧
      (getNode ar (fetch c).current).next.isSome = true ∧
      vis1.contains (cellCoords ar c) = false ∧
      ∃ vis2 last,
        walkVisit ar (cellCoords ar c).1 (cellCoords ar c).2 (ar.length + 1)
            ((getNode ar (fetch c).current).next.getD 0) vis1 = some (vis2, last, false)

theorem extractGo_notEnclosed_iff (ar : List Node2D) :
    ∀ (cells : List Cell) (vis : List (Nat × Nat)) (acc : List Nat),
      (extractGo ar cells vis acc = .notEnclosed ↔ ScanFailure ar cells vis) := by
  intro cells
  induction cells with
  | nil =>
    intro vis acc
    constructor
    · intro h; cases h
    · rintro ⟨pre, c, post, h, -⟩
      cases pre <;> cases h
  | cons c rest ih =>
    intro vis acc
    rw [extractGo]
    by_cases hcond : ((getNode ar (fetch c).current).next.isSome &&
        !(vis.contains (cellCoords ar c))) = true
    · rw [if_pos hcond]
      have hboth := hcond
      rw [Bool.and_eq_true] at hboth
      obtain ⟨hsome, hnvis⟩ := hboth
      cases hw : walkVisit ar (cellCoords ar c).1 (cellCoords ar c).2 (ar.length + 1)
          ((getNode ar (fetch c).current).next.getD 0) vis with
      | none =>
        constructor
        · intro h; cases h
        · rintro ⟨pre, c', post, hsplit, vis1, hscan, hsome', hnvis', vis2, last, hw'⟩
          cases pre with
          | nil =>
            simp only [List.nil_append, List.cons.injEq] at hsplit
            obtain ⟨rfl, rfl⟩ := hsplit
            rw [scanVis] at hscan
            obtain rfl := Option.some.inj hscan
            rw [hw] at hw'
            cases hw'
          | cons c0 pre' =>
            simp only [List.cons_append, List.cons.injEq] at hsplit
            obtain ⟨rfl, -⟩ := hsplit
            rw [scanVis, if_pos hcond, hw] at hscan
            cases hscan
      | some res =>
        obtain ⟨vis', last, returned⟩ := res
        cases returned with
        | true =>
          simp only [if_true]
          rw [ih]
          constructor
          · rintro ⟨pre, c', post, hsplit, vis1, hscan, hs', hv', vis2, last', hw'⟩
            exact ⟨c :: pre, c', post, by rw [hsplit, List.cons_append], vis1,
              by rw [scanVis, if_pos hcond, hw]; exact hscan, hs', hv', vis2, last', hw'⟩
          · rintro ⟨pre, c', post, hsplit, vis1, hscan, hs', hv', vis2, last', hw'⟩
            cases pre with
            | nil =>
              simp only [List.nil_append, List.cons.injEq] at hsplit
              obtain ⟨rfl, rfl⟩ := hsplit
              rw [scanVis] at hscan
              obtain rfl := Option.some.inj hscan
              rw [hw] at hw'
              simp only [Option.some.injEq, Prod.mk.injEq] at hw'
              obtain ⟨-, -, h3⟩ := hw'
              cases h3
            | cons c0 pre' =>
              simp only [List.cons_append, List.cons.injEq] at hsplit
              obtain ⟨rfl, hsplit2⟩ := hsplit
              rw [scanVis, if_pos hcond, hw] at hscan
              exact ⟨pre', c', post, hsplit2, vis1, hscan, hs', hv', vis2, last', hw'⟩
        | false =>
          simp only [Bool.false_eq_true, if_false]
          constructor
          · intro _h
            refine ⟨[], c, rest, rfl, vis, rfl, hsome, ?_, vis', last, hw⟩
            revert hnvis
            cases vis.contains (cellCoords ar c) <;> simp
          · intro _h
            trivial
    · rw [if_neg hcond]
      rw [ih]
      constructor
      · rintro ⟨pre, c', post, hsplit, vis1, hscan, hs', hv', vis2, last', hw'⟩
        exact ⟨c :: pre, c', post, by rw [hsplit, List.cons_append], vis1,
          by rw [scanVis, if_neg hcond]; exact hscan, hs', hv', vis2, last', hw'⟩
      · rintro ⟨pre, c', post, hsplit, vis1, hscan, hs', hv', vis2, last', hw'⟩
        cases pre with
        | nil =>
          simp only [List.nil_append, List.cons.injEq] at hsplit
          obtain ⟨rfl, rfl⟩ := hsplit
          rw [scanVis] at hscan
          obtain rfl := Option.some.inj hscan
          exact absurd (by rw [hs', hv']; rfl) hcond
        | cons c0 pre' =>
          simp only [List.cons_append, List.cons.injEq] at hsplit
          obtain ⟨rfl, hsplit2⟩ := hsplit
          rw [scanVis, if_neg hcond] at hscan
          exact ⟨pre', c', post, hsplit2, vis1, hscan, hs', hv', vis2, last', hw'⟩

end Pixvg

namespace Pixvg

/-- C9: for every NodeGrid on which no walk diverges, the extractor either
returns the recorded loops or signals `IsNotEnclosed`, and it signals the error
exactly when the scan reaches an unvisited origin whose walk stops, before
returning to the origin, at a node whose `next` is absent (the third conjunct:
a walk that stops unreturned stops at a node with absent `next`). -/
theorem c9_extract_error_characterization (g : NodeGrid2D)
    (hnd : extract_node_loops g ≠ .diverged) :
    ((∃ loops, extract_node_loops g = .ok loops) ∨ extract_node_loops g = .notEnclosed) ∧
    (extract_node_loops g = .notEnclosed ↔ ScanFailure g.nodes g.cells.flatten []) ∧
    (∀ ox oy fuel cur vis vis2 last,
      walkVisit g.nodes ox oy fuel cur vis = some (vis2, last, false) →
      (getNode g.nodes last).next = none) := by
  refine ⟨?_, extractGo_notEnclosed_iff g.nodes g.cells.flatten [] [],
    fun ox oy fuel cur vis vis2 last h =>
      walkVisit_false_next_none g.nodes ox oy fuel cur vis vis2 last h⟩
  cases hres : extract_node_loops g with
  | ok l => exact Or.inl ⟨l, rfl⟩
  | notEnclosed => exact Or.inr rfl
  | diverged => exact absurd hres hnd

/-- C9 witness: the extractor on the NodeGrid of the 3×3 ring. -/
theorem c9_extract_error_characterization_witness :
    extract_node_loops (trace_bitmask ring3) ≠ .diverged ∧
    (((∃ loops, extract_node_loops (trace_bitmask ring3) = .ok loops) ∨
        extract_node_loops (trace_bitmask ring3) = .notEnclosed) ∧
     (extract_node_loops (trace_bitmask ring3) = .notEnclosed ↔
        ScanFailure (trace_bitmask ring3).nodes (trace_bitmask ring3).cells.flatten []) ∧
     (∀ ox oy fuel cur vis vis2 last,
        walkVisit (trace_bitmask ring3).nodes ox oy fuel cur vis = some (vis2, last, false) →
        (getNode (trace_bitmask ring3).nodes last).next = none)) :=
  ⟨by decide, c9_extract_error_characterization (trace_bitmask ring3) (by decide)⟩

end Pixvg

namespace Pixvg

/-- The order of first appearance of the elements of `l` (spec-side helper for
the ordering claims). -/
def firstOccur {α : Type} [BEq α] (l : List α) : List α :=
  l.foldl (fun acc k => if acc.contains k then acc else acc ++ [k]) []

theorem firstOccur_step {α : Type} [BEq α] (l : List α) (k : α) :
    firstOccur (l ++ [k]) =
      if (firstOccur l).contains k then firstOccur l else firstOccur l ++ [k] := by
  unfold firstOccur
  rw [List.foldl_append]
  rfl

theorem mem_occStep {α : Type} [BEq α] [LawfulBEq α] (acc : List α) (a k : α) :
    (k ∈ (if acc.contains a then acc else acc ++ [a])) ↔ (k ∈ acc ∨ k = a) := by
  by_cases hc : acc.contains a = true
  · rw [if_pos hc]
    have ha : a ∈ acc := by simpa using hc
    constructor
    · exact Or.inl
    · rintro (h | rfl)
      · exact h
      · exact ha
  · rw [if_neg hc]
    simp

theorem mem_firstOccurAux {α : Type} [BEq α] [LawfulBEq α] :
    ∀ (l acc : List α) (k : α),
      (k ∈ l.foldl (fun acc k => if acc.contains k then acc else acc ++ [k]) acc ↔
        k ∈ acc ∨ k ∈ l)
  | [], acc, k => by simp
  | a :: l, acc, k => by
    rw [List.foldl_cons, mem_firstOccurAux l _ k, mem_occStep]
    simp only [List.mem_cons]
    tauto

theorem mem_firstOccur {α : Type} [BEq α] [LawfulBEq α] {l : List α} {k : α} :
    k ∈ firstOccur l ↔ k ∈ l := by
  rw [firstOccur, mem_firstOccurAux]
  simp

theorem nodup_firstOccurAux {α : Type} [BEq α] [LawfulBEq α] :
    ∀ (l acc : List α), acc.Nodup →
      (l.foldl (fun acc k => if acc.contains k then acc else acc ++ [k]) acc).Nodup
  | [], _, h => h
  | a :: l, acc, h => by
    rw [List.foldl_cons]
    refine nodup_firstOccurAux l _ ?_
    by_cases hc : acc.contains a = true
    · rw [if_pos hc]; exact h
    · rw [if_neg hc]
      refine List.Nodup.append h (List.nodup_singleton a) ?_
      intro x hx hx2
      rw [List.mem_singleton] at hx2
      subst hx2
      exact absurd (by simpa using hx) (fun hm => hc (by simpa using hm))

theorem nodup_firstOccur {α : Type} [BEq α] [LawfulBEq α] (l : List α) :
    (firstOccur l).Nodup :=
  nodup_firstOccurAux l [] List.nodup_nil

theorem containsKey_eq_mem {κ α : Type} [BEq κ] [LawfulBEq κ] (regs : List (κ × α)) (k : κ) :
    containsKey regs k = true ↔ k ∈ regs.map Prod.fst := by
  simp only [containsKey, List.any_eq_true, List.mem_map, beq_iff_eq]

theorem map_fst_updateAssoc {κ α : Type} [BEq κ] (f : α → α) (k : κ) :
    ∀ (regs : List (κ × α)), (updateAssoc regs k f).map Prod.fst = regs.map Prod.fst
  | [] => rfl
  | (k', r) :: rest => by
    rw [updateAssoc]
    by_cases h : (k' == k) = true
    · rw [if_pos h]
      simp
    · rw [if_neg h]
      simp [map_fst_updateAssoc f k rest]

theorem mem_updateAssoc_nodup {κ α : Type} [BEq κ] [LawfulBEq κ] (f : α → α) (k : κ) :
    ∀ (regs : List (κ × α)), (regs.map Prod.fst).Nodup →
      ∀ kv' ∈ updateAssoc regs k f,
        (kv' ∈ regs ∧ kv'.1 ≠ k) ∨ ∃ r, (k, r) ∈ regs ∧ kv' = (k, f r)
  | [], _, kv', h => absurd h (List.not_mem_nil kv')
  | (k', r) :: rest, hnd, kv', h => by
    have hnd0 : (k' :: rest.map Prod.fst).Nodup := by simpa using hnd
    have hnd' := List.nodup_cons.mp hnd0
    rw [updateAssoc] at h
    by_cases hk : (k' == k) = true
    · rw [if_pos hk] at h
      obtain rfl : k' = k := by simpa using hk
      rcases List.mem_cons.mp h with rfl | h2
      · exact Or.inr ⟨r, List.mem_cons_self _ _, rfl⟩
      · left
        refine ⟨List.mem_cons_of_mem _ h2, fun hkk => ?_⟩
        have : kv'.1 ∈ rest.map Prod.fst := List.mem_map.mpr ⟨kv', h2, rfl⟩
        rw [hkk] at this
        exact hnd'.1 this
    · rw [if_neg hk] at h
      have hk' : k' ≠ k := by simpa using hk
      rcases List.mem_cons.mp h with rfl | h2
      · exact Or.inl ⟨List.mem_cons_self _ _, hk'⟩
      · rcases mem_updateAssoc_nodup f k rest hnd'.2 kv' h2 with ⟨h3, h4⟩ | ⟨r2, h3, h4⟩
        · exact Or.inl ⟨List.mem_cons_of_mem _ h3, h4⟩
        · exact Or.inr ⟨r2, List.mem_cons_of_mem _ h3, h4⟩

end Pixvg

namespace Pixvg

/-- Invariant of the pixel fold of `get_distinct_color_regions` after the
pixels `done` have been processed: the dict keys are the hexes of `done` in
first-appearance order, keys are distinct, and each region's bitmask holds
exactly the processed pixels of its colour. -/
def RegionsInv (img : Image) (done : List (Nat × Nat))
    (regs : List (String × Color2DRegion)) : Prop :=
  regs.map Prod.fst = firstOccur (done.map (fun q => (img.pix q.1 q.2).to_hex)) ∧
  (regs.map Prod.fst).Nodup ∧
  ∀ kv ∈ regs, ∀ a b : Nat,
    (kv.2.bitmask a b = 1 ↔ ((a, b) ∈ done ∧ (img.pix a b).to_hex = kv.1))

theorem regionsInv_nil (img : Image) : RegionsInv img [] [] := by
  refine ⟨rfl, List.nodup_nil, ?_⟩
  intro kv hkv
  exact absurd hkv (List.not_mem_nil kv)

theorem regionAdd_bitmask (r : Color2DRegion) (x y a b : Nat) :
    (regionAdd r x y).bitmask a b = if a = x && b = y then 1 else r.bitmask a b := rfl

theorem untouched_region_iff {κ : Type} (keyOf : Nat × Nat → κ) (done : List (Nat × Nat))
    (p : Nat × Nat) (kv' : κ × Color2DRegion) (hne : kv'.1 ≠ keyOf p)
    (hold : ∀ a b : Nat,
      kv'.2.bitmask a b = 1 ↔ ((a, b) ∈ done ∧ keyOf (a, b) = kv'.1)) :
    ∀ a b : Nat,
      kv'.2.bitmask a b = 1 ↔ ((a, b) ∈ done ++ [p] ∧ keyOf (a, b) = kv'.1) := by
  intro a b
  rw [hold a b]
  simp only [List.mem_append, List.mem_singleton]
  constructor
  · rintro ⟨h1, h2⟩
    exact ⟨Or.inl h1, h2⟩
  · rintro ⟨h1 | h1, h2⟩
    · exact ⟨h1, h2⟩
    · exfalso
      subst h1
      exact hne (by rw [← h2])

theorem touched_region_iff {κ : Type} (keyOf : Nat × Nat → κ) (done : List (Nat × Nat))
    (p : Nat × Nat) (r : Color2DRegion)
    (hold : ∀ a b : Nat,
      r.bitmask a b = 1 ↔ ((a, b) ∈ done ∧ keyOf (a, b) = keyOf p)) :
    ∀ a b : Nat,
      (regionAdd r p.1 p.2).bitmask a b = 1 ↔
        ((a, b) ∈ done ++ [p] ∧ keyOf (a, b) = keyOf p) := by
  intro a b
  rw [regionAdd_bitmask]
  by_cases h1 : a = p.1
  · by_cases h2 : b = p.2
    · subst h1
      subst h2
      simp
    · rw [show (decide (a = p.1) && decide (b = p.2)) = false by simp [h2]]
      simp only [Bool.false_eq_true, if_false]
      rw [hold a b]
      simp only [List.mem_append, List.mem_singleton]
      constructor
      · rintro ⟨hm, he⟩
        exact ⟨Or.inl hm, he⟩
      · rintro ⟨hm | hm, he⟩
        · exact ⟨hm, he⟩
        · exact absurd (congrArg Prod.snd hm) h2
  · rw [show (decide (a = p.1) && decide (b = p.2)) = false by simp [h1]]
    simp only [Bool.false_eq_true, if_false]
    rw [hold a b]
    simp only [List.mem_append, List.mem_singleton]
    constructor
    · rintro ⟨hm, he⟩
      exact ⟨Or.inl hm, he⟩
    · rintro ⟨hm | hm, he⟩
      · exact ⟨hm, he⟩
      · exact absurd (congrArg Prod.fst hm) h1

theorem regionsInv_step (img : Image) (done : List (Nat × Nat))
    (regs : List (String × Color2DRegion)) (p : Nat × Nat)
    (hinv : RegionsInv img done regs) :
    RegionsInv img (done ++ [p])
      (updateAssoc
        (if containsKey regs ((img.pix p.1 p.2).to_hex) then regs
         else regs ++
          [((img.pix p.1 p.2).to_hex, emptyRegion (img.pix p.1 p.2) img.width img.height)])
        ((img.pix p.1 p.2).to_hex) (fun r => regionAdd r p.1 p.2)) := by
  obtain ⟨hkeys, hnd, hmask⟩ := hinv
  have hmapapp : (done ++ [p]).map (fun q => (img.pix q.1 q.2).to_hex) =
      done.map (fun q => (img.pix q.1 q.2).to_hex) ++ [(img.pix p.1 p.2).to_hex] := by
    rw [List.map_append]
    rfl
  by_cases hc : containsKey regs ((img.pix p.1 p.2).to_hex) = true
  · rw [if_pos hc]
    have hmem : (img.pix p.1 p.2).to_hex ∈ regs.map Prod.fst := (containsKey_eq_mem _ _).mp hc
    refine ⟨?_, ?_, ?_⟩
    · rw [map_fst_updateAssoc, hkeys, hmapapp, firstOccur_step, if_pos]
      rw [← hkeys]
      simpa using hmem
    · rw [map_fst_updateAssoc]
      exact hnd
    · intro kv' hkv' a b
      rcases mem_updateAssoc_nodup _ _ regs hnd kv' hkv' with ⟨hin, hne⟩ | ⟨r, hin, rfl⟩
      · exact untouched_region_iff (fun q => (img.pix q.1 q.2).to_hex) done p kv' hne (hmask kv' hin) a b
      · exact touched_region_iff (fun q => (img.pix q.1 q.2).to_hex) done p r (hmask (_, r) hin) a b
  · rw [if_neg hc]
    have hnotmem : (img.pix p.1 p.2).to_hex ∉ regs.map Prod.fst := by
      intro hm
      exact hc ((containsKey_eq_mem _ _).mpr hm)
    have hnd1 : ((regs ++
        [((img.pix p.1 p.2).to_hex, emptyRegion (img.pix p.1 p.2) img.width img.height)]).map
          Prod.fst).Nodup := by
      rw [List.map_append]
      refine List.Nodup.append hnd (List.nodup_singleton _) ?_
      intro x hx hx2
      rw [List.map_singleton, List.mem_singleton] at hx2
      subst hx2
      exact hnotmem hx
    refine ⟨?_, ?_, ?_⟩
    · rw [map_fst_updateAssoc, List.map_append, hkeys, hmapapp, firstOccur_step, if_neg]
      · rfl
      · rw [← hkeys]
        intro hcon
        exact hnotmem (by simpa using hcon)
    · rw [map_fst_updateAssoc]
      exact hnd1
    · intro kv' hkv' a b
      rcases mem_updateAssoc_nodup _ _ _ hnd1 kv' hkv' with ⟨hin, hne⟩ | ⟨r, hin, rfl⟩
      · rcases List.mem_append.mp hin with hin1 | hin1
        · exact untouched_region_iff (fun q => (img.pix q.1 q.2).to_hex) done p kv' hne (hmask kv' hin1) a b
        · exfalso
          rw [List.mem_singleton] at hin1
          exact hne (congrArg Prod.fst hin1)
      · have hr : r = emptyRegion (img.pix p.1 p.2) img.width img.height := by
          rcases List.mem_append.mp hin with hin1 | hin1
          · exact absurd (List.mem_map.mpr ⟨_, hin1, rfl⟩) hnotmem
          · rw [List.mem_singleton] at hin1
            exact ((Prod.mk.injEq _ _ _ _).mp hin1.symm).2.symm
        subst hr
        refine touched_region_iff (fun q => (img.pix q.1 q.2).to_hex) done p _ (fun a b => ?_) a b
        constructor
        · intro h0
          cases h0
        · rintro ⟨hm, he⟩
          exfalso
          apply hnotmem
          have he' : (img.pix a b).to_hex = (img.pix p.1 p.2).to_hex := he
          rw [← he']
          have hmm : (img.pix a b).to_hex ∈ done.map (fun q => (img.pix q.1 q.2).to_hex) :=
            List.mem_map.mpr ⟨(a, b), hm, rfl⟩
          rw [hkeys]
          exact mem_firstOccur.mpr hmm

end Pixvg

namespace Pixvg

theorem regions_foldl_inv (img : Image) :
    ∀ (ps done : List (Nat × Nat)) (regs : List (String × Color2DRegion)),
      (∀ p ∈ ps, (img.pix p.1 p.2).valid = true) →
      RegionsInv img done regs →
      ∃ regs', ps.foldl (regionsStep img) (some regs) = some regs' ∧
        RegionsInv img (done ++ ps) regs'
  | [], done, regs, _, hinv => ⟨regs, rfl, by simpa using hinv⟩
  | p :: ps, done, regs, hval, hinv => by
    rw [List.foldl_cons]
    have hv : (img.pix p.1 p.2).valid = true := hval p (List.mem_cons_self _ _)
    have hstep : regionsStep img (some regs) p =
        some (updateAssoc
          (if containsKey regs ((img.pix p.1 p.2).to_hex) then regs
           else regs ++ [((img.pix p.1 p.2).to_hex,
             emptyRegion (img.pix p.1 p.2) img.width img.height)])
          ((img.pix p.1 p.2).to_hex) (fun r => regionAdd r p.1 p.2)) := by
      rw [regionsStep, Option.some_bind, if_pos hv]
    rw [hstep]
    obtain ⟨regs', hfold, hinv'⟩ := regions_foldl_inv img ps (done ++ [p]) _
      (fun q hq => hval q (List.mem_cons_of_mem _ hq))
      (regionsInv_step img done regs p hinv)
    refine ⟨regs', hfold, ?_⟩
    rw [List.append_assoc, List.singleton_append] at hinv'
    exact hinv'

theorem mem_rowMajor {w h x y : Nat} : (x, y) ∈ rowMajor w h ↔ (x < w ∧ y < h) := by
  simp only [rowMajor, List.mem_flatten, List.mem_map, List.mem_range]
  constructor
  · rintro ⟨l, ⟨y', hy', rfl⟩, hm⟩
    rcases List.mem_map.mp hm with ⟨x', hx', he⟩
    obtain ⟨rfl, rfl⟩ := Prod.mk.injEq .. ▸ he
    exact ⟨List.mem_range.mp hx', hy'⟩
  · rintro ⟨hx, hy⟩
    exact ⟨_, ⟨y, hy, rfl⟩, List.mem_map.mpr ⟨x, List.mem_range.mpr hx, rfl⟩⟩

/-- C3: the colour partitioner is a partition.  For every image of valid RGBA
pixels, `get_distinct_color_regions` succeeds, and every in-range pixel (x, y)
is contained in exactly one region's bitmask, namely the region keyed by that
pixel's colour hex — hence the bitmasks are pairwise disjoint and their union
covers the image. -/
theorem c3_colour_partition (img : Image)
    (hval : ∀ x, x < img.width → ∀ y, y < img.height → (img.pix x y).valid = true)
    (x y : Nat) (hx : x < img.width) (hy : y < img.height) :
    ∃ regs, get_distinct_color_regions img = some regs ∧
      regs.countP (fun kv => kv.2.bitmask x y == 1) = 1 ∧
      ∀ kv ∈ regs, (kv.2.bitmask x y = 1 ↔ kv.1 = (img.pix x y).to_hex) := by
  obtain ⟨regs, hfold, hkeys, hnd, hmask⟩ :=
    regions_foldl_inv img (rowMajor img.width img.height) [] []
      (fun p hp => hval p.1 (mem_rowMajor.mp hp).1 p.2 (mem_rowMajor.mp hp).2)
      (regionsInv_nil img)
  rw [List.nil_append] at hkeys hmask
  have hxy : (x, y) ∈ rowMajor img.width img.height := mem_rowMajor.mpr ⟨hx, hy⟩
  have hiff : ∀ kv ∈ regs, (kv.2.bitmask x y = 1 ↔ kv.1 = (img.pix x y).to_hex) := by
    intro kv hkv
    rw [hmask kv hkv x y]
    constructor
    · rintro ⟨-, h⟩
      exact h.symm
    · intro h
      exact ⟨hxy, h.symm⟩
  refine ⟨regs, hfold, ?_, hiff⟩
  have hcong : regs.countP (fun kv => kv.2.bitmask x y == 1) =
      regs.countP (fun kv => kv.1 == (img.pix x y).to_hex) := by
    apply List.countP_congr
    intro kv hkv
    constructor
    · intro h
      exact beq_iff_eq.mpr ((hiff kv hkv).mp (by simpa using h))
    · intro h
      exact beq_iff_eq.mpr ((hiff kv hkv).mpr (by simpa using h))
  rw [hcong]
  have hmm : (img.pix x y).to_hex ∈ regs.map Prod.fst := by
    rw [hkeys]
    exact mem_firstOccur.mpr (List.mem_map.mpr ⟨(x, y), hxy, rfl⟩)
  have : regs.countP (fun kv => kv.1 == (img.pix x y).to_hex) =
      (regs.map Prod.fst).countP (fun k => k == (img.pix x y).to_hex) := by
    rw [List.countP_map]
    rfl
  rw [this]
  have hcnt : (regs.map Prod.fst).countP (fun k => k == (img.pix x y).to_hex) =
      (regs.map Prod.fst).count ((img.pix x y).to_hex) := by
    rw [List.count]
  rw [hcnt]
  exact List.count_eq_one_of_mem hnd hmm

end Pixvg

namespace Pixvg

/-- Invariant of the label-grouping fold of `split_into_clusters` after the
pixels `done` have been scanned: cluster keys are the nonzero labels in
first-appearance order, keys are distinct and nonzero, and each cluster's
bitmask holds exactly the scanned pixels of its label. -/
def ClustersInv (labels : List (List Nat)) (done : List (Nat × Nat))
    (cl : List (Nat × Color2DRegion)) : Prop :=
  cl.map Prod.fst =
    firstOccur ((done.map (fun q => lget labels q.1 q.2)).filter (fun id => id != 0)) ∧
  (cl.map Prod.fst).Nodup ∧
  (∀ kv ∈ cl, kv.1 ≠ 0) ∧
  ∀ kv ∈ cl, ∀ a b : Nat,
    (kv.2.bitmask a b = 1 ↔ ((a, b) ∈ done ∧ lget labels a b = kv.1))

theorem clustersInv_nil (labels : List (List Nat)) : ClustersInv labels [] [] := by
  refine ⟨rfl, List.nodup_nil, ?_, ?_⟩ <;>
    exact fun kv hkv => absurd hkv (List.not_mem_nil kv)

theorem clustersInv_step (region : Color2DRegion) (labels : List (List Nat))
    (done : List (Nat × Nat)) (cl : List (Nat × Color2DRegion)) (p : Nat × Nat)
    (hinv : ClustersInv labels done cl) :
    ClustersInv labels (done ++ [p]) (clustersStep region labels cl p) := by
  obtain ⟨hkeys, hnd, hnz, hmask⟩ := hinv
  rw [clustersStep]
  have hfilter : ((done ++ [p]).map (fun q => lget labels q.1 q.2)).filter (fun id => id != 0) =
      (done.map (fun q => lget labels q.1 q.2)).filter (fun id => id != 0) ++
        (if lget labels p.1 p.2 = 0 then [] else [lget labels p.1 p.2]) := by
    rw [List.map_append, List.filter_append]
    congr 1
    by_cases h0 : lget labels p.1 p.2 = 0
    · rw [if_pos h0]
      simp [h0]
    · rw [if_neg h0]
      simp [h0]
  by_cases h0 : lget labels p.1 p.2 = 0
  · rw [if_pos h0]
    refine ⟨?_, hnd, hnz, ?_⟩
    · rw [hkeys, hfilter, if_pos h0, List.append_nil]
    · intro kv hkv a b
      rw [hmask kv hkv a b]
      simp only [List.mem_append, List.mem_singleton]
      constructor
      · rintro ⟨h1, h2⟩
        exact ⟨Or.inl h1, h2⟩
      · rintro ⟨h1 | h1, h2⟩
        · exact ⟨h1, h2⟩
        · exfalso
          subst h1
          exact hnz kv hkv (by rw [← h2]; exact h0)
  · rw [if_neg h0]
    by_cases hc : containsKey cl (lget labels p.1 p.2) = true
    · rw [if_pos hc]
      have hmem : lget labels p.1 p.2 ∈ cl.map Prod.fst := (containsKey_eq_mem _ _).mp hc
      refine ⟨?_, ?_, ?_, ?_⟩
      · rw [map_fst_updateAssoc, hkeys, hfilter, if_neg h0, firstOccur_step, if_pos]
        rw [← hkeys]
        simpa using hmem
      · rw [map_fst_updateAssoc]
        exact hnd
      · intro kv hkv
        rcases mem_updateAssoc_nodup _ _ cl hnd kv hkv with ⟨hin, -⟩ | ⟨r, hin, rfl⟩
        · exact hnz kv hin
        · exact h0
      · intro kv' hkv' a b
        rcases mem_updateAssoc_nodup _ _ cl hnd kv' hkv' with ⟨hin, hne⟩ | ⟨r, hin, rfl⟩
        · exact untouched_region_iff (fun q => lget labels q.1 q.2) done p kv' hne
            (hmask kv' hin) a b
        · exact touched_region_iff (fun q => lget labels q.1 q.2) done p r
            (hmask (_, r) hin) a b
    · rw [if_neg hc]
      have hnotmem : lget labels p.1 p.2 ∉ cl.map Prod.fst := by
        intro hm
        exact hc ((containsKey_eq_mem _ _).mpr hm)
      have hnd1 : ((cl ++
          [(lget labels p.1 p.2, emptyRegion region.color region.width region.height)]).map
            Prod.fst).Nodup := by
        rw [List.map_append]
        refine List.Nodup.append hnd (List.nodup_singleton _) ?_
        intro x hx hx2
        rw [List.map_singleton, List.mem_singleton] at hx2
        subst hx2
        exact hnotmem hx
      refine ⟨?_, ?_, ?_, ?_⟩
      · rw [map_fst_updateAssoc, List.map_append, hkeys, hfilter, if_neg h0, firstOccur_step,
          if_neg]
        · rfl
        · rw [← hkeys]
          intro hcon
          exact hnotmem (by simpa using hcon)
      · rw [map_fst_updateAssoc]
        exact hnd1
      · intro kv hkv
        rcases mem_updateAssoc_nodup _ _ _ hnd1 kv hkv with ⟨hin, -⟩ | ⟨r, hin, rfl⟩
        · rcases List.mem_append.mp hin with hin1 | hin1
          · exact hnz kv hin1
          · rw [List.mem_singleton] at hin1
            rw [hin1]
            exact h0
        · exact h0
      · intro kv' hkv' a b
        rcases mem_updateAssoc_nodup _ _ _ hnd1 kv' hkv' with ⟨hin, hne⟩ | ⟨r, hin, rfl⟩
        · rcases List.mem_append.mp hin with hin1 | hin1
          · exact untouched_region_iff (fun q => lget labels q.1 q.2) done p kv' hne
              (hmask kv' hin1) a b
          · exfalso
            rw [List.mem_singleton] at hin1
            exact hne (congrArg Prod.fst hin1)
        · have hr : r = emptyRegion region.color region.width region.height := by
            rcases List.mem_append.mp hin with hin1 | hin1
            · exact absurd (List.mem_map.mpr ⟨_, hin1, rfl⟩) hnotmem
            · rw [List.mem_singleton] at hin1
              exact ((Prod.mk.injEq _ _ _ _).mp hin1.symm).2.symm
          subst hr
          refine touched_region_iff (fun q => lget labels q.1 q.2) done p _
            (fun a b => ?_) a b
          constructor
          · intro hh
            cases hh
          · rintro ⟨hm, he⟩
            exfalso
            apply hnotmem
            have he' : lget labels a b = lget labels p.1 p.2 := he
            rw [← he', hkeys]
            refine mem_firstOccur.mpr ?_
            rw [List.mem_filter]
            refine ⟨List.mem_map.mpr ⟨(a, b), hm, rfl⟩, ?_⟩
            have : lget labels a b ≠ 0 := by
              rw [he']
              exact h0
            simpa using this

theorem clusters_foldl_inv (region : Color2DRegion) (labels : List (List Nat)) :
    ∀ (ps done : List (Nat × Nat)) (cl : List (Nat × Color2DRegion)),
      ClustersInv labels done cl →
      ClustersInv labels (done ++ ps) (ps.foldl (clustersStep region labels) cl)
  | [], done, cl, hinv => by simpa using hinv
  | p :: ps, done, cl, hinv => by
    rw [List.foldl_cons]
    have h2 := clusters_foldl_inv region labels ps (done ++ [p]) _
      (clustersInv_step region labels done cl p hinv)
    rw [List.append_assoc, List.singleton_append] at h2
    exact h2

/-- C8: per-image determinism and ordering.  The embedding is a pure function
of the image and scale, so two runs are identical by definition; the
substantive claims are the orderings.  (a) The colour-region keys are the pixel
hexes in row-major first-appearance order.  (b) The clusters produced for a
label matrix are keyed by the nonzero labels in row-major first-appearance
order — the flood-fill labeler assigns labels in row-major first-pixel order —
and each cluster's bitmask holds exactly the pixels of its label, so clusters
appear in row-major first-pixel order within their colour region. -/
theorem c8_deterministic_ordering :
    (∀ (img : Image),
      (∀ x, x < img.width → ∀ y, y < img.height → (img.pix x y).valid = true) →
      ∀ regs, get_distinct_color_regions img = some regs →
        regs.map Prod.fst =
          firstOccur ((rowMajor img.width img.height).map
            (fun q => (img.pix q.1 q.2).to_hex))) ∧
    (∀ (region : Color2DRegion) (labels : List (List Nat)),
      (clusterAssoc region labels).map Prod.fst =
        firstOccur (((rowMajor region.width region.height).map
          (fun q => lget labels q.1 q.2)).filter (fun id => id != 0)) ∧
      ∀ kv ∈ clusterAssoc region labels, ∀ a b : Nat,
        (kv.2.bitmask a b = 1 ↔
          ((a, b) ∈ rowMajor region.width region.height ∧ lget labels a b = kv.1))) := by
  constructor
  · intro img hval regs hsome
    obtain ⟨regs', hfold, hkeys, -, -⟩ :=
      regions_foldl_inv img (rowMajor img.width img.height) [] []
        (fun p hp => hval p.1 (mem_rowMajor.mp hp).1 p.2 (mem_rowMajor.mp hp).2)
        (regionsInv_nil img)
    rw [get_distinct_color_regions, hfold] at hsome
    obtain rfl := Option.some.inj hsome
    rw [List.nil_append] at hkeys
    exact hkeys
  · intro region labels
    have h := clusters_foldl_inv region labels (rowMajor region.width region.height) [] []
      (clustersInv_nil labels)
    rw [List.nil_append] at h
    obtain ⟨hkeys, -, -, hmask⟩ := h
    exact ⟨hkeys, hmask⟩

/-- C3 witness: the partition property on the 3×3 ring image at pixel (0, 0). -/
theorem c3_colour_partition_witness :
    ((∀ x, x < (ringImage blackOpaque transparentColor).width → ∀ y,
        y < (ringImage blackOpaque transparentColor).height →
        ((ringImage blackOpaque transparentColor).pix x y).valid = true) ∧
      0 < (ringImage blackOpaque transparentColor).width ∧
      0 < (ringImage blackOpaque transparentColor).height) ∧
    (∃ regs, get_distinct_color_regions (ringImage blackOpaque transparentColor) = some regs ∧
      regs.countP (fun kv => kv.2.bitmask 0 0 == 1) = 1 ∧
      ∀ kv ∈ regs,
        (kv.2.bitmask 0 0 = 1 ↔
          kv.1 = ((ringImage blackOpaque transparentColor).pix 0 0).to_hex)) :=
  ⟨⟨by decide, by decide, by decide⟩,
    c3_colour_partition (ringImage blackOpaque transparentColor) (by decide) 0 0
      (by decide) (by decide)⟩

end Pixvg

namespace Pixvg

/-- C8 witness: the colour ordering on the ring image and the cluster grouping
for a concrete 2×1 label matrix. -/
theorem c8_deterministic_ordering_witness :
    ((∀ x, x < (ringImage blackOpaque transparentColor).width → ∀ y,
        y < (ringImage blackOpaque transparentColor).height →
        ((ringImage blackOpaque transparentColor).pix x y).valid = true) ∧
      ((get_distinct_color_regions (ringImage blackOpaque transparentColor)).getD []).map
          Prod.fst =
        firstOccur ((rowMajor 3 3).map
          (fun q => ((ringImage blackOpaque transparentColor).pix q.1 q.2).to_hex))) ∧
    ((clusterAssoc (emptyRegion blackOpaque 2 1) [[1, 1]]).map Prod.fst =
        firstOccur (((rowMajor 2 1).map (fun q => lget [[1, 1]] q.1 q.2)).filter
          (fun id => id != 0)) ∧
      ∀ kv ∈ clusterAssoc (emptyRegion blackOpaque 2 1) [[1, 1]], ∀ a b : Nat,
        (kv.2.bitmask a b = 1 ↔ ((a, b) ∈ rowMajor 2 1 ∧ lget [[1, 1]] a b = kv.1))) :=
  ⟨⟨by decide,
      c8_deterministic_ordering.1 (ringImage blackOpaque transparentColor) (by decide) _ rfl⟩,
    c8_deterministic_ordering.2 (emptyRegion blackOpaque 2 1) [[1, 1]]⟩

end Pixvg

namespace Pixvg

theorem ring_chain_eta (c : Color) : ringChain c = ⟨c, 3, 3, (ringChain blackOpaque).bitmask⟩ := rfl

theorem containsKey_map_snd {κ α β : Type} [BEq κ] (σ : α → β) (k : κ) :
    ∀ l : List (κ × α), containsKey (l.map (fun kv => (kv.1, σ kv.2))) k = containsKey l k
  | [] => rfl
  | (k', a) :: rest => by
    simp only [List.map_cons, containsKey, List.any_cons]
    have h := containsKey_map_snd σ k rest
    simp only [containsKey] at h
    rw [h]

theorem updateAssoc_map_snd {κ α β : Type} [BEq κ] (σ : α → β) (f1 : β → β) (f2 : α → α)
    (hcomm : ∀ a, f1 (σ a) = σ (f2 a)) (k : κ) :
    ∀ l : List (κ × α),
      updateAssoc (l.map (fun kv => (kv.1, σ kv.2))) k f1 =
        (updateAssoc l k f2).map (fun kv => (kv.1, σ kv.2))
  | [] => rfl
  | (k', r) :: rest => by
    simp only [List.map_cons, updateAssoc]
    by_cases h : (k' == k) = true
    · rw [if_pos h, if_pos h]
      simp [hcomm r]
    · rw [if_neg h, if_neg h]
      simp [updateAssoc_map_snd σ f1 f2 hcomm k rest]

theorem clustersStep_recolor (col : Color) (w h : Nat) (bm : Nat → Nat → Nat)
    (labels : List (List Nat)) (cl : List (Nat × Color2DRegion)) (p : Nat × Nat) :
    clustersStep ⟨col, w, h, bm⟩ labels (cl.map (fun kv => (kv.1, recolorR col kv.2))) p =
      (clustersStep ⟨blackOpaque, w, h, bm⟩ labels cl p).map
        (fun kv => (kv.1, recolorR col kv.2)) := by
  simp only [clustersStep]
  by_cases h0 : lget labels p.1 p.2 = 0
  · rw [if_pos h0, if_pos h0]
  · rw [if_neg h0, if_neg h0]
    rw [containsKey_map_snd]
    by_cases hc : containsKey cl (lget labels p.1 p.2) = true
    · rw [if_pos hc, if_pos hc]
      exact updateAssoc_map_snd (recolorR col) (fun r => regionAdd r p.1 p.2)
        (fun r => regionAdd r p.1 p.2) (fun r => rfl) (lget labels p.1 p.2) cl
    · rw [if_neg hc, if_neg hc]
      rw [show (cl.map (fun kv => (kv.1, recolorR col kv.2))) ++
          [(lget labels p.1 p.2, emptyRegion col w h)] =
          (cl ++ [(lget labels p.1 p.2, emptyRegion blackOpaque w h)]).map
            (fun kv => (kv.1, recolorR col kv.2)) from by
        simp only [List.map_append, List.map_cons, List.map_nil]
        rfl]
      exact updateAssoc_map_snd (recolorR col) (fun r => regionAdd r p.1 p.2)
        (fun r => regionAdd r p.1 p.2) (fun r => rfl) (lget labels p.1 p.2) _

theorem clusterAssoc_fold_recolor (col : Color) (w h : Nat) (bm : Nat → Nat → Nat)
    (labels : List (List Nat)) :
    ∀ (ps : List (Nat × Nat)) (cl : List (Nat × Color2DRegion)),
      ps.foldl (clustersStep ⟨col, w, h, bm⟩ labels)
          (cl.map (fun kv => (kv.1, recolorR col kv.2))) =
        (ps.foldl (clustersStep ⟨blackOpaque, w, h, bm⟩ labels) cl).map
          (fun kv => (kv.1, recolorR col kv.2))
  | [], cl => rfl
  | p :: ps, cl => by
    rw [List.foldl_cons, List.foldl_cons, clustersStep_recolor]
    exact clusterAssoc_fold_recolor col w h bm labels ps _

theorem clusterAssoc_recolor (col : Color) (w h : Nat) (bm : Nat → Nat → Nat)
    (labels : List (List Nat)) :
    clusterAssoc ⟨col, w, h, bm⟩ labels =
      (clusterAssoc ⟨blackOpaque, w, h, bm⟩ labels).map
        (fun kv => (kv.1, recolorR col kv.2)) := by
  rw [clusterAssoc, clusterAssoc]
  exact clusterAssoc_fold_recolor col w h bm labels _ []

theorem clusterPathData_recolor (s : Nat) (col : Color) (r : Color2DRegion) :
    clusterPathData s (recolorR col r) =
      (clusterPathData s r).map (fun p => (p.1, col.to_hex)) := by
  rw [clusterPathData, clusterPathData]
  rw [show (⟨(recolorR col r).width, (recolorR col r).height, (recolorR col r).bitmask⟩ : Bitmask)
      = ⟨r.width, r.height, r.bitmask⟩ from rfl]
  cases extract_node_loops (trace_bitmask ⟨r.width, r.height, r.bitmask⟩) with
  | notEnclosed => rfl
  | diverged => rfl
  | ok loops =>
    dsimp only
    cases loops.foldl (fun oar o => oar.bind (fun ar => optimize ar o))
        (some (trace_bitmask ⟨r.width, r.height, r.bitmask⟩).nodes) with
    | none => rfl
    | some ar =>
      simp only [Option.some_bind]
      cases loops.foldl
          (fun os o => os.bind (fun st => (loop_to_path_data s ar o).map (st ++ ·))) (some "") with
      | none => rfl
      | some dta => rfl

end Pixvg

namespace Pixvg

theorem hexDigitChar_inj : ∀ d1 < 16, ∀ d2 < 16, hexDigitChar d1 = hexDigitChar d2 → d1 = d2 := by
  decide

theorem to_hex_data (c : Color) :
    c.to_hex.data = ['#', hexDigitChar (c.r / 16), hexDigitChar (c.r % 16),
      hexDigitChar (c.g / 16), hexDigitChar (c.g % 16),
      hexDigitChar (c.b / 16), hexDigitChar (c.b % 16),
      hexDigitChar (c.a / 16), hexDigitChar (c.a % 16)] := rfl

theorem to_hex_alpha_ne (c t : Color) (hc : c.valid = true) (ht : t.valid = true)
    (hne : c.a ≠ t.a) : c.to_hex ≠ t.to_hex := by
  intro heq
  have hd := congrArg String.data heq
  rw [to_hex_data, to_hex_data] at hd
  simp only [List.cons.injEq, and_true] at hd
  have hca : c.a ≤ 255 := by
    simp only [Color.valid, Bool.and_eq_true, decide_eq_true_eq] at hc
    exact hc.2
  have hta : t.a ≤ 255 := by
    simp only [Color.valid, Bool.and_eq_true, decide_eq_true_eq] at ht
    exact ht.2
  have e1 : c.a / 16 = t.a / 16 :=
    hexDigitChar_inj _ (by omega) _ (by omega) hd.2.2.2.2.2.2.2.1
  have e2 : c.a % 16 = t.a % 16 :=
    hexDigitChar_inj _ (by omega) _ (by omega) hd.2.2.2.2.2.2.2.2
  exact hne (by omega)

end Pixvg

namespace Pixvg

theorem pathStep_recolor (scale : Nat) (col : Color) (r : Color2DRegion)
    (A : Option (List (String × String))) :
    (A.map (List.map (fun pr => (pr.1, col.to_hex)))).bind
        (fun ps => (clusterPathData scale (recolorR col r)).map (fun p => ps ++ [p])) =
      (A.bind (fun ps => (clusterPathData scale r).map (fun p => ps ++ [p]))).map
        (List.map (fun pr => (pr.1, col.to_hex))) := by
  rw [clusterPathData_recolor]
  cases A with
  | none => rfl
  | some ps =>
    simp only [Option.map_some', Option.some_bind]
    cases clusterPathData scale r with
    | none => rfl
    | some p =>
      simp only [Option.map_some', Option.map_map, List.map_append]
      rfl

theorem pathFold_recolor (scale : Nat) (col : Color) :
    ∀ (rs : List Color2DRegion) (A : Option (List (String × String))),
      (rs.map (recolorR col)).foldl
          (fun ops cc => ops.bind (fun ps => (clusterPathData scale cc).map (fun p => ps ++ [p])))
          (A.map (List.map (fun pr => (pr.1, col.to_hex)))) =
        (rs.foldl
            (fun ops cc => ops.bind (fun ps => (clusterPathData scale cc).map (fun p => ps ++ [p])))
            A).map (List.map (fun pr => (pr.1, col.to_hex)))
  | [], A => rfl
  | r :: rs, A => by
    rw [List.map_cons, List.foldl_cons, List.foldl_cons, pathStep_recolor]
    exact pathFold_recolor scale col rs _

end Pixvg

namespace Pixvg

theorem foldl_singleton {A B : Type} (f : B → A → B) (b : B) (a : A) :
    List.foldl f b [a] = f b a := rfl

theorem option_some_bind {A B : Type} (a : A) (f : A → Option B) :
    (some a).bind f = f a := rfl

theorem option_map_some {A B : Type} (f : A → B) (a : A) :
    (some a).map f = some (f a) := rfl

set_option maxHeartbeats 1600000

/-- C5: for a 3×3 image whose 8 border pixels share one opaque colour and whose
centre pixel is not opaque (in particular transparent), at scale 1 the pipeline
emits exactly one path, filled with the border colour, whose path-data is the
outer sub-path `M0,0L3,0L3,3L0,3Z` followed by the inner sub-path
`M1,1L1,2L2,2L2,1Z`. -/
theorem c5_ring_pipeline (c t : Color) (hcv : c.valid = true) (htv : t.valid = true)
    (hca : c.a = 255) (hta : t.a ≠ 255) :
    pipelinePaths (ringImage c t) 1 =
      some [("M0,0L3,0L3,3L0,3Z" ++ "M1,1L1,2L2,2L2,1Z", c.to_hex)] := by
  have hne : c.to_hex ≠ t.to_hex := to_hex_alpha_ne c t hcv htv (by omega)
  have hbne1 : (c.to_hex == t.to_hex) = false := by
    rw [beq_eq_false_iff_ne]
    exact hne
  have hbne2 : (t.to_hex == c.to_hex) = false := by
    rw [beq_eq_false_iff_ne]
    exact (Ne.symm hne)
  have hregs : get_distinct_color_regions (ringImage c t) =
      some [(c.to_hex, ringChain c), (t.to_hex, regionAdd (emptyRegion t 3 3) 1 1)] := by
    rw [get_distinct_color_regions]
    rw [show rowMajor (ringImage c t).width (ringImage c t).height =
      [(0,0),(1,0),(2,0),(0,1),(1,1),(2,1),(0,2),(1,2),(2,2)] from rfl]
    simp [List.foldl_cons, List.foldl_nil, regionsStep, Option.some_bind, ringImage, hcv, htv,
      containsKey, updateAssoc, List.any_cons, List.any_nil, beq_self_eq_true, hbne1, hbne2,
      ringChain]
  rw [pipelinePaths, hregs, Option.some_bind]
  have hfc1 : ((ringChain c).color.a == 255) = true := by
    rw [show (ringChain c).color = c from rfl, hca]
    rfl
  have hfc2 : (((regionAdd (emptyRegion t 3 3) 1 1)).color.a == 255) = false := by
    rw [show (regionAdd (emptyRegion t 3 3) 1 1).color = t from rfl, beq_eq_false_iff_ne]
    exact hta
  rw [show (List.map Prod.snd
      [(c.to_hex, ringChain c), (t.to_hex, regionAdd (emptyRegion t 3 3) 1 1)]) =
      [ringChain c, regionAdd (emptyRegion t 3 3) 1 1] from rfl]
  rw [List.filter_cons, List.filter_cons, List.filter_nil]
  rw [hfc1, hfc2]
  simp only [reduceIte]
  rw [if_neg (show ¬(false = true) from by simp)]
  rw [foldl_singleton]
  rw [option_some_bind]
  rw [ring_chain_eta c]
  rw [split_into_clusters]
  rw [show (⟨(⟨c, 3, 3, (ringChain blackOpaque).bitmask⟩ : Color2DRegion).width,
      (⟨c, 3, 3, (ringChain blackOpaque).bitmask⟩ : Color2DRegion).height,
      (⟨c, 3, 3, (ringChain blackOpaque).bitmask⟩ : Color2DRegion).bitmask⟩ : Bitmask) =
      ⟨3, 3, (ringChain blackOpaque).bitmask⟩ from rfl]
  rw [show find_connected_neumann_regions ⟨3, 3, (ringChain blackOpaque).bitmask⟩ =
      some [[1,1,1],[1,0,1],[1,1,1]] from by decide]
  rw [option_map_some]
  rw [clusterAssoc_recolor c 3 3 ((ringChain blackOpaque).bitmask) [[1,1,1],[1,0,1],[1,1,1]]]
  rw [List.map_map]
  rw [show (Prod.snd ∘ fun kv : Nat × Color2DRegion => (kv.1, recolorR c kv.2)) =
      (recolorR c ∘ Prod.snd) from rfl]
  rw [← List.map_map]
  rw [option_map_some]
  rw [option_some_bind]
  rw [List.nil_append]
  rw [show (some ([] : List (String × String))) =
      Option.map (List.map (fun pr : String × String => (pr.1, c.to_hex))) (some []) from rfl]
  rw [pathFold_recolor 1 c
    (List.map Prod.snd
      (clusterAssoc ⟨blackOpaque, 3, 3, (ringChain blackOpaque).bitmask⟩
        [[1,1,1],[1,0,1],[1,1,1]]))
    (some [])]
  rw [show List.foldl
      (fun ops cc => ops.bind (fun ps => (clusterPathData 1 cc).map (fun p => ps ++ [p])))
      (some [])
      (List.map Prod.snd
        (clusterAssoc ⟨blackOpaque, 3, 3, (ringChain blackOpaque).bitmask⟩
          [[1,1,1],[1,0,1],[1,1,1]])) =
      some [("M0,0L3,0L3,3L0,3ZM1,1L1,2L2,2L2,1Z", "#000000ff")] from by decide]
  rfl

end Pixvg

namespace Pixvg

/-- Witness for C5 at the concrete colours opaque black / transparent. -/
theorem c5_ring_pipeline_witness :
    blackOpaque.valid = true ∧ transparentColor.valid = true ∧
    blackOpaque.a = 255 ∧ transparentColor.a ≠ 255 ∧
    pipelinePaths (ringImage blackOpaque transparentColor) 1 =
      some [("M0,0L3,0L3,3L0,3Z" ++ "M1,1L1,2L2,2L2,1Z", blackOpaque.to_hex)] :=
  ⟨by decide, by decide, by decide, by decide,
    c5_ring_pipeline blackOpaque transparentColor (by decide) (by decide) (by decide)
      (by decide)⟩

end Pixvg

namespace Pixvg

/-- C6, counterexample.  On the 5-node axis-aligned loop `c6Arena`, whose
nodes 0 and 2 share the coordinates (0,0) — exactly the situation split
vertices produce — running `optimize` twice does not give the same result as
running it once: the first pass stops early at the duplicate of the origin,
and the second pass splices the origin itself. -/
theorem c6_counterexample :
    (optimize c6Arena 0).bind (fun ar1 => optimize ar1 0) ≠ optimize c6Arena 0 := by
  decide

theorem axSh_symm {A : Bool} {p q : Nat × Nat} (h : axSh A p q) : axSh A q p := by
  cases A <;> exact h.symm

theorem axSh_trans {A : Bool} {p q r : Nat × Nat} (h1 : axSh A p q) (h2 : axSh A q r) :
    axSh A p r := by
  cases A <;> exact h1.trans h2

theorem shareB_true_iff {p q : Nat × Nat} :
    shareB p q = true ↔ axSh true p q ∨ axSh false p q := by
  simp [shareB, axSh]

theorem shareB_false_iff {p q : Nat × Nat} :
    shareB p q = false ↔ ¬axSh true p q ∧ ¬axSh false p q := by
  simp [shareB, axSh]

theorem beq_symm_nat (a b : Nat) : (a == b) = (b == a) := by
  by_cases h : a = b
  · subst h
    rfl
  · rw [beq_eq_false_iff_ne.mpr h, beq_eq_false_iff_ne.mpr (Ne.symm h)]

theorem shareB_symm (p q : Nat × Nat) : shareB p q = shareB q p := by
  simp only [shareB]
  rw [beq_symm_nat p.1 q.1, beq_symm_nat p.2 q.2]

theorem axSh_resolve {A : Bool} {p q : Nat × Nat} (hne : p ≠ q) (h : axSh A p q) :
    ¬axSh (!A) p q := by
  intro h'
  cases A with
  | true => exact hne (Prod.ext h h')
  | false => exact hne (Prod.ext h' h)

theorem pick_axis {p q : Nat × Nat} (hs : shareB p q = true) (hne : p ≠ q) :
    ∃ B, axSh B p q ∧ ¬axSh (!B) p q := by
  rcases shareB_true_iff.mp hs with h | h
  · exact ⟨true, h, axSh_resolve hne h⟩
  · exact ⟨false, h, axSh_resolve hne h⟩

theorem two_axis_noshare {A : Bool} {p q r : Nat × Nat}
    (h1 : axSh A p q) (h1' : ¬axSh (!A) p q)
    (h2 : axSh (!A) q r) (h2' : ¬axSh (!(!A)) q r) :
    shareB r p = false := by
  rw [shareB_false_iff]
  cases A <;>
    simp only [Bool.not_true, Bool.not_false, axSh] at h1 h1' h2 h2' ⊢ <;> omega

theorem axchain_corners : ∀ (cs : List (Nat × Nat)) (axes : List Bool),
    AxChain cs axes → axes.Chain' (fun x y => y = !x) → noCornerSplice cs
  | [], _, _, _ => trivial
  | [_], _, _, _ => trivial
  | [_, _], _, _, _ => trivial
  | _ :: _ :: _ :: _, [], hax, _ => hax.elim
  | _ :: _ :: _ :: _, [_], hax, _ => hax.2.elim
  | p :: q :: r :: rest, A :: B :: axes, hax, halt => by
    obtain ⟨hpq, hax'⟩ := hax
    obtain ⟨hqr, hax''⟩ := hax'
    obtain ⟨hBA, halt'⟩ := List.chain'_cons.mp halt
    refine ⟨?_, axchain_corners (q :: r :: rest) (B :: axes) ⟨hqr, hax''⟩ halt'⟩
    subst hBA
    exact two_axis_noshare hpq.1 hpq.2 hqr.1 hqr.2

theorem fwdLinked_snoc1 {ar : List Node2D} :
    ∀ (l : List Nat) (v u : Nat), fwdLinked ar l → l.getLast? = some v →
      (getNode ar v).next = some u → (getNode ar u).prev = some v →
      fwdLinked ar (l ++ [u])
  | [], v, u, _, hlast, _, _ => by simp at hlast
  | [x], v, u, _, hlast, hn, hp => by
    simp at hlast
    subst hlast
    exact ⟨hn, hp, trivial⟩
  | x :: y :: l, v, u, h, hlast, hn, hp =>
    ⟨h.1, h.2.1, fwdLinked_snoc1 (y :: l) v u h.2.2 (by simpa using hlast) hn hp⟩

theorem revLinked_reverse {ar : List Node2D} :
    ∀ (L : List Nat), revLinked ar L → fwdLinked ar L.reverse
  | [], _ => trivial
  | [_], _ => trivial
  | u :: v :: rest, h => by
    have ih := revLinked_reverse (v :: rest) h.2.2
    have hlast : (v :: rest).reverse.getLast? = some v := by
      rw [List.getLast?_reverse]
      rfl
    have := fwdLinked_snoc1 ((v :: rest).reverse) v u ih hlast h.1 h.2.1
    simpa [List.reverse_cons] using this

theorem axchain_snoc1 :
    ∀ (cs : List (Nat × Nat)) (axes : List Bool) (q p : Nat × Nat) (A : Bool),
      AxChain cs axes → cs.getLast? = some q → axSh A q p → ¬axSh (!A) q p →
      AxChain (cs ++ [p]) (axes ++ [A])
  | [], [], q, p, A, _, hlast, _, _ => by simp at hlast
  | [x], [], q, p, A, _, hlast, h1, h2 => by
    simp at hlast
    subst hlast
    exact ⟨⟨h1, h2⟩, trivial⟩
  | [], B :: _, _, _, _, hax, _, _, _ => hax.elim
  | [_], B :: _, _, _, _, hax, _, _, _ => hax.elim
  | _ :: _ :: _, [], _, _, _, hax, _, _, _ => hax.elim
  | x :: y :: cs, B :: axes, q, p, A, hax, hlast, h1, h2 =>
    ⟨hax.1, axchain_snoc1 (y :: cs) axes q p A hax.2 (by simpa using hlast) h1 h2⟩

theorem axchain_reverse :
    ∀ (cs : List (Nat × Nat)) (axes : List Bool),
      AxChain cs axes → AxChain cs.reverse axes.reverse
  | [], [], _ => trivial
  | [_], [], _ => trivial
  | [], _ :: _, hax => hax.elim
  | [_], _ :: _, hax => hax.elim
  | _ :: _ :: _, [], hax => hax.elim
  | p :: q :: cs, A :: axes, hax => by
    have ih := axchain_reverse (q :: cs) axes hax.2
    have hlast : (q :: cs).reverse.getLast? = some q := by
      rw [List.getLast?_reverse]
      rfl
    have h1 : axSh A q p := axSh_symm hax.1.1
    have h2 : ¬axSh (!A) q p := fun hh => hax.1.2 (axSh_symm hh)
    have := axchain_snoc1 ((q :: cs).reverse) axes.reverse q p A ih hlast h1 h2
    simpa [List.reverse_cons] using this

theorem length_setNext (ar : List Node2D) (i : Nat) (v : Option Nat) :
    (setNext ar i v).length = ar.length := by
  simp [setNext]

theorem length_setPrev (ar : List Node2D) (i : Nat) (v : Option Nat) :
    (setPrev ar i v).length = ar.length := by
  simp [setPrev]

theorem getNode_set_self {ar : List Node2D} {i : Nat} (h : i < ar.length) (nd : Node2D) :
    getNode (ar.set i nd) i = nd := by
  simp [getNode, List.getD, List.getElem?_set_self', h]

theorem getNode_set_other {ar : List Node2D} {i j : Nat} (h : j ≠ i) (nd : Node2D) :
    getNode (ar.set i nd) j = getNode ar j := by
  simp [getNode, List.getD, List.getElem?_set_ne (Ne.symm h)]

theorem getNode_setNext_self {ar : List Node2D} {i : Nat} (h : i < ar.length) (v : Option Nat) :
    getNode (setNext ar i v) i = { getNode ar i with next := v } :=
  getNode_set_self h _

theorem getNode_setNext_other {ar : List Node2D} {i j : Nat} (h : j ≠ i) (v : Option Nat) :
    getNode (setNext ar i v) j = getNode ar j :=
  getNode_set_other h _

theorem getNode_setPrev_self {ar : List Node2D} {i : Nat} (h : i < ar.length) (v : Option Nat) :
    getNode (setPrev ar i v) i = { getNode ar i with prev := v } :=
  getNode_set_self h _

theorem getNode_setPrev_other {ar : List Node2D} {i j : Nat} (h : j ≠ i) (v : Option Nat) :
    getNode (setPrev ar i v) j = getNode ar j :=
  getNode_set_other h _

theorem length_mkLoop (ps : List (Nat × Nat)) : (mkLoop ps).length = ps.length := by
  simp [mkLoop]

theorem getNode_mkLoop {ps : List (Nat × Nat)} {m : Nat} (h : m < ps.length) :
    getNode (mkLoop ps) m =
      ⟨(coordAt ps m).1, (coordAt ps m).2, some (succIdx ps.length m),
       some (if m = 0 then ps.length - 1 else m - 1)⟩ := by
  simp [mkLoop, getNode, List.getD, List.getElem?_map, List.getElem?_range, h]

theorem getNode_mkLoop_ge {ps : List (Nat × Nat)} {m : Nat} (h : ps.length ≤ m) :
    getNode (mkLoop ps) m = ⟨0, 0, none, none⟩ := by
  have : (mkLoop ps).length ≤ m := by rw [length_mkLoop]; exact h
  simp [getNode, List.getD, List.getElem?_eq_none this]

theorem coordAt_ge {ps : List (Nat × Nat)} {m : Nat} (h : ps.length ≤ m) :
    coordAt ps m = (0, 0) := by
  simp [coordAt, List.getD, List.getElem?_eq_none h]

theorem pair_beq_false {p q : Nat × Nat} (h : p ≠ q) :
    (p.1 == q.1 && p.2 == q.2) = false := by
  by_cases h1 : p.1 = q.1
  · by_cases h2 : p.2 = q.2
    · exact absurd (Prod.ext h1 h2) h
    · simp [h2]
  · simp [h1]

theorem bool_ne_not {a b : Bool} (h : a ≠ b) : a = !b := by
  cases a <;> cases b <;> simp_all

theorem optimizeGo_mono {ox oy : Nat} :
    ∀ (f : Nat) {f' : Nat} {ar : List Node2D} {cur : Nat} {r : List Node2D},
      optimizeGo ox oy f ar cur = some r → f ≤ f' →
      optimizeGo ox oy f' ar cur = some r
  | 0, _, _, _, _, h, _ => by simp [optimizeGo] at h
  | f + 1, f', ar, cur, r, h, hle => by
    obtain ⟨f'', rfl⟩ : ∃ f'', f' = f'' + 1 := ⟨f' - 1, by omega⟩
    cases hn : (getNode ar cur).next with
    | none =>
      rw [optimizeGo] at h
      dsimp only at h
      rw [hn] at h
      simp at h
    | some nx =>
      cases hp : (getNode ar cur).prev with
      | none =>
        rw [optimizeGo] at h
        dsimp only at h
        rw [hn, hp] at h
        simp at h
      | some pv =>
        rw [optimizeGo] at h ⊢
        dsimp only at h ⊢
        rw [hn, hp] at h ⊢
        dsimp only at h ⊢
        split at h
        · next hcond =>
            rw [if_pos hcond]
            split at h
            · next hpt =>
                rw [if_pos hpt]
                exact h
            · next hpt =>
                rw [if_neg hpt]
                exact optimizeGo_mono f h (by omega)
        · next hcond =>
            rw [if_neg hcond]
            split at h
            · next hpt =>
                rw [if_pos hpt]
                exact h
            · next hpt =>
                rw [if_neg hpt]
                exact optimizeGo_mono f h (by omega)

theorem revLinked_stable {ar ar' : List Node2D} :
    ∀ (L : List Nat), revLinked ar L →
      (∀ m ∈ L.tail, (getNode ar' m).next = (getNode ar m).next) →
      (∀ m ∈ L.dropLast, (getNode ar' m).prev = (getNode ar m).prev) →
      revLinked ar' L
  | [], _, _, _ => trivial
  | [_], _, _, _ => trivial
  | u :: v :: rest, h, hn, hp => by
    refine ⟨?_, ?_, ?_⟩
    · rw [hn v (by simp)]
      exact h.1
    · rw [hp u (by simp [List.dropLast])]
      exact h.2.1
    · refine revLinked_stable (v :: rest) h.2.2 (fun m hm => hn m ?_) (fun m hm => hp m ?_)
      · exact List.mem_cons_of_mem _ hm
      · exact List.mem_cons_of_mem _ hm

theorem A0_spec {ps : List (Nat × Nat)}
    (hs : shareB (coordAt ps 0) (coordAt ps 1) = true)
    (hne : coordAt ps 0 ≠ coordAt ps 1) :
    axSh (A0 ps) (coordAt ps 0) (coordAt ps 1) ∧
      ¬axSh (!A0 ps) (coordAt ps 0) (coordAt ps 1) := by
  by_cases hx : (coordAt ps 0).1 = (coordAt ps 1).1
  · have hA : A0 ps = true := by simp [A0, hx]
    rw [hA]
    exact ⟨hx, axSh_resolve hne (A := true) hx⟩
  · have hA : A0 ps = false := by simp [A0, hx]
    rw [hA]
    rcases shareB_true_iff.mp hs with h | h
    · exact absurd h hx
    · exact ⟨h, axSh_resolve hne (A := false) h⟩

theorem optimizeGo_step {ox oy f : Nat} {ar : List Node2D} {cur nx pv : Nat}
    (hn : (getNode ar cur).next = some nx) (hp : (getNode ar cur).prev = some pv) :
    optimizeGo ox oy (f + 1) ar cur =
      (if ((getNode ar nx).x == (getNode ar pv).x || (getNode ar nx).y == (getNode ar pv).y)
          = true
       then (if point2DEq (getNode (setPrev (setNext ar pv (some nx)) nx (some pv)) nx)
                  { x := ox, y := oy } = true
             then some (setPrev (setNext ar pv (some nx)) nx (some pv))
             else optimizeGo ox oy f (setPrev (setNext ar pv (some nx)) nx (some pv)) nx)
       else (if point2DEq (getNode ar nx) { x := ox, y := oy } = true
             then some ar
             else optimizeGo ox oy f ar nx)) := by
  rw [optimizeGo]
  dsimp only
  rw [hn, hp]
  dsimp only
  by_cases hcond :
      ((getNode ar nx).x == (getNode ar pv).x || (getNode ar nx).y == (getNode ar pv).y) = true
  · rw [if_pos hcond, if_pos hcond]
  · rw [if_neg hcond, if_neg hcond]

theorem pass2_go (ps : List (Nat × Nat)) :
    ∀ (W : List Nat) (p u fuel : Nat) (ar : List Node2D),
      W.length + 1 ≤ fuel →
      (∀ m, (getNode ar m).x = (coordAt ps m).1 ∧ (getNode ar m).y = (coordAt ps m).2) →
      fwdLinked ar (p :: u :: W) →
      noCornerSplice ((p :: u :: W).map (coordAt ps)) →
      W.getLast? = some 0 →
      (∀ v ∈ W.dropLast, coordAt ps v ≠ coordAt ps 0) →
      optimizeGo (coordAt ps 0).1 (coordAt ps 0).2 fuel ar u = some ar
  | [], _, _, _, _, _, _, _, _, hlast, _ => by simp at hlast
  | v :: W, p, u, fuel, ar, hf, hco, hlink, hnc, hlast, hmid => by
    obtain ⟨f, rfl⟩ : ∃ f, fuel = f + 1 := ⟨fuel - 1, by omega⟩
    obtain ⟨hpu_n, hpu_p, hlink'⟩ := hlink
    obtain ⟨huv_n, huv_p, hlink''⟩ := hlink'
    rw [optimizeGo_step huv_n hpu_p]
    have hcond :
        ((getNode ar v).x == (getNode ar p).x || (getNode ar v).y == (getNode ar p).y) = false := by
      rw [(hco v).1, (hco v).2, (hco p).1, (hco p).2]
      exact hnc.1
    rw [if_neg (show ¬_ from by rw [hcond]; simp)]
    cases W with
    | nil =>
      have hv0 : v = 0 := by simpa using hlast
      subst hv0
      have hpt : point2DEq (getNode ar 0)
          { x := (coordAt ps 0).1, y := (coordAt ps 0).2 } = true := by
        simp [point2DEq, (hco 0).1, (hco 0).2]
      rw [if_pos hpt]
    | cons w W' =>
      have hvm : coordAt ps v ≠ coordAt ps 0 := hmid v (by simp [List.dropLast])
      have hpt : point2DEq (getNode ar v)
          { x := (coordAt ps 0).1, y := (coordAt ps 0).2 } = false := by
        simp only [point2DEq, (hco v).1, (hco v).2]
        exact pair_beq_false hvm
      rw [if_neg (show ¬_ from by rw [hpt]; simp)]
      refine pass2_go ps (w :: W') u v f ar
        (by simp only [List.length_cons] at hf ⊢; omega) hco ⟨huv_n, huv_p, hlink''⟩ hnc.2
        (by simpa using hlast) (fun x hx => hmid x ?_)
      exact List.mem_cons_of_mem _ hx

theorem chain_gt_pairwise :
    ∀ (L : List Nat), L.Chain' (fun x y => x > y) → L.Pairwise (fun x y => x > y)
  | [], _ => List.Pairwise.nil
  | [_], _ => by simp
  | x :: y :: L, h => by
    obtain ⟨hxy, h'⟩ := List.chain'_cons.mp h
    have ih := chain_gt_pairwise (y :: L) h'
    refine List.pairwise_cons.mpr ⟨?_, ih⟩
    intro z hz
    rcases List.mem_cons.mp hz with rfl | hz'
    · exact hxy
    · have := (List.pairwise_cons.mp ih).1 z hz'
      omega

theorem pairwise_dropLast_getLast :
    ∀ (L : List Nat) (z : Nat), L.Pairwise (fun x y => x > y) → L.getLast? = some z →
      ∀ x ∈ L.dropLast, x > z
  | [], _, _, h, _, _ => by simp at h
  | [_], _, _, _, _, hx => by simp at hx
  | y :: w :: L, z, hp, hlast, x, hx => by
    have hlast' : (w :: L).getLast? = some z := by simpa using hlast
    have hx' : x = y ∨ x ∈ (w :: L).dropLast := by
      simpa [List.dropLast] using hx
    rcases hx' with rfl | hx'
    · have hz : z ∈ w :: L := by
        obtain ⟨ys, hys⟩ := List.getLast?_eq_some_iff.mp hlast'
        rw [hys]
        exact List.mem_append_right _ (by simp)
      exact (List.pairwise_cons.mp hp).1 z hz
    · exact pairwise_dropLast_getLast (w :: L) z (List.pairwise_cons.mp hp).2 hlast' x hx'

theorem wrap_ne_A0 {ps : List (Nat × Nat)} (hN : 3 ≤ ps.length)
    (hdist : ∀ j, j < ps.length → ∀ i, i < j → coordAt ps i ≠ coordAt ps j)
    (hedge : ∀ i, i < ps.length →
      shareB (coordAt ps i) (coordAt ps (succIdx ps.length i)) = true)
    (horig : shareB (coordAt ps 1) (coordAt ps (ps.length - 1)) = false)
    {C : Bool} (hC : axSh C (coordAt ps (ps.length - 1)) (coordAt ps 0)) :
    C ≠ A0 ps := by
  intro hCe
  subst hCe
  have hsucc0 : succIdx ps.length 0 = 1 := by
    rw [succIdx, if_neg (by omega)]
  have hs01 : shareB (coordAt ps 0) (coordAt ps 1) = true := by
    have h := hedge 0 (by omega)
    rwa [hsucc0] at h
  have hne01 : coordAt ps 0 ≠ coordAt ps 1 := hdist 1 (by omega) 0 (by omega)
  obtain ⟨hA0, _⟩ := A0_spec hs01 hne01
  have htr : axSh (A0 ps) (coordAt ps (ps.length - 1)) (coordAt ps 1) := axSh_trans hC hA0
  have hsh : shareB (coordAt ps 1) (coordAt ps (ps.length - 1)) = true := by
    rw [shareB_true_iff]
    have h' := axSh_symm htr
    cases hA : A0 ps
    · rw [hA] at h'
      exact Or.inr h'
    · rw [hA] at h'
      exact Or.inl h'
  rw [horig] at hsh
  exact absurd hsh (by simp)

theorem pass1_go (ps : List (Nat × Nat)) (hN : 3 ≤ ps.length)
    (hdist : ∀ j, j < ps.length → ∀ i, i < j → coordAt ps i ≠ coordAt ps j)
    (hedge : ∀ i, i < ps.length →
      shareB (coordAt ps i) (coordAt ps (succIdx ps.length i)) = true)
    (horig : shareB (coordAt ps 1) (coordAt ps (ps.length - 1)) = false) :
    ∀ (d j a : Nat) (rest : List Nat) (axes : List Bool) (ar : List Node2D),
      j + d + 1 = ps.length →
      Inv1 ps ar j a rest axes →
      ∃ arF LF axesF,
        optimizeGo (coordAt ps 0).1 (coordAt ps 0).2 (d + 1) ar j = some arF ∧
          Fin1 ps arF LF axesF
  | 0, j, a, rest, axes, ar, harith, inv => by
    have haxm := inv.ax
    simp only [List.map_cons] at haxm
    cases axes with
    | nil => exact haxm.elim
    | cons A axes' =>
    obtain ⟨⟨hA, hA'⟩, haxtail⟩ := haxm
    have hnj := inv.untN j le_rfl inv.jlt
    have hpj : (getNode ar j).prev = some a := inv.linked.2.1
    have hpw : (j :: a :: rest).Pairwise (fun x y => x > y) := chain_gt_pairwise _ inv.desc
    have hja : j > a := (List.pairwise_cons.mp hpw).1 a (by simp)
    have harest : ∀ m ∈ rest, a > m := (List.pairwise_cons.mp (List.pairwise_cons.mp hpw).2).1
    have hjN : j = ps.length - 1 := by omega
    subst hjN
    have hsucc : succIdx ps.length (ps.length - 1) = 0 := by rw [succIdx, if_pos rfl]
    rw [hsucc] at hnj
    have hedgej : shareB (coordAt ps (ps.length - 1)) (coordAt ps 0) = true := by
      have h := hedge (ps.length - 1) inv.jlt
      rwa [hsucc] at h
    have hjne0 : coordAt ps (ps.length - 1) ≠ coordAt ps 0 :=
      (hdist (ps.length - 1) inv.jlt 0 (by omega)).symm
    obtain ⟨B, hB, hB'⟩ := pick_axis hedgej hjne0
    rw [optimizeGo_step hnj hpj]
    by_cases hAB : A = B
    · -- the wrap edge continues the current run: splice out ps.length - 1
      subst hAB
      have ha0 : a ≠ 0 := by
        intro ha
        subst ha
        cases rest with
        | cons r rest' => exact absurd (harest r (by simp)) (by omega)
        | nil =>
          cases axes' with
          | cons _ _ => exact haxtail.elim
          | nil =>
            have hAA0 : A = A0 ps := by
              have h := inv.axbot
              simpa using h
            exact (wrap_ne_A0 hN hdist hedge horig hA) hAA0
      have htr : axSh A (coordAt ps 0) (coordAt ps a) := axSh_trans (axSh_symm hB) hA
      have hsh : shareB (coordAt ps 0) (coordAt ps a) = true := by
        rw [shareB_true_iff]
        cases A
        · exact Or.inr htr
        · exact Or.inl htr
      have hcondT : ((getNode ar 0).x == (getNode ar a).x ||
          (getNode ar 0).y == (getNode ar a).y) = true := by
        rw [(inv.coords 0).1, (inv.coords 0).2, (inv.coords a).1, (inv.coords a).2]
        exact hsh
      rw [if_pos hcondT]
      have halen : a < ar.length := by
        rw [inv.lenAr]
        omega
      have h0lens : (0 : Nat) < (setNext ar a (some 0)).length := by
        rw [length_setNext, inv.lenAr]
        omega
      set ar' := setPrev (setNext ar a (some 0)) 0 (some a) with har'
      have hsa : getNode ar' a = { getNode ar a with next := some 0 } := by
        rw [har', getNode_setPrev_other ha0, getNode_setNext_self halen]
      have hs0 : getNode ar' 0 = { getNode (setNext ar a (some 0)) 0 with prev := some a } := by
        rw [har', getNode_setPrev_self h0lens]
      have hs0' : getNode ar' 0 = { getNode ar 0 with prev := some a } := by
        rw [hs0, getNode_setNext_other (Ne.symm ha0)]
      have hsn : ∀ m, m ≠ a → m ≠ 0 → getNode ar' m = getNode ar m := fun m h1 h2 => by
        rw [har', getNode_setPrev_other h2, getNode_setNext_other h1]
      have hco' : ∀ m, (getNode ar' m).x = (coordAt ps m).1 ∧
          (getNode ar' m).y = (coordAt ps m).2 := by
        intro m
        by_cases h1 : m = a
        · rw [h1, hsa]
          exact inv.coords a
        · by_cases h2 : m = 0
          · subst h2
            rw [hs0']
            exact inv.coords 0
          · rw [hsn m h1 h2]
            exact inv.coords m
      have hpt : point2DEq (getNode ar' 0)
          { x := (coordAt ps 0).1, y := (coordAt ps 0).2 } = true := by
        simp [point2DEq, (hco' 0).1, (hco' 0).2]
      rw [if_pos hpt]
      refine ⟨ar', a :: rest, A :: axes', rfl, ?_⟩
      have hpwa : (a :: rest).Pairwise (fun x y => x > y) := (List.pairwise_cons.mp hpw).2
      refine ⟨?_, hco', ⟨?_, ?_, ?_⟩, inv.lastz, ?_, ?_, ?_, inv.alt, inv.axbot, ?_⟩
      · rw [har', length_setPrev, length_setNext]
        exact inv.lenAr
      · rw [hsa]
      · rw [hs0']
      · refine revLinked_stable (a :: rest) inv.linked.2.2 ?_ ?_
        · intro m hm
          by_cases h2 : m = 0
          · subst h2
            rw [hs0']
          · rw [hsn m (by have := harest m hm; omega) h2]
        · intro m hm
          have hm0 := pairwise_dropLast_getLast (a :: rest) 0 hpwa inv.lastz m hm
          by_cases h1 : m = a
          · rw [h1, hsa]
          · rw [hsn m h1 (by omega)]
      · intro m hm
        have hm0 := pairwise_dropLast_getLast (a :: rest) 0 hpwa inv.lastz m hm
        have hmem : m ∈ a :: rest := List.dropLast_subset _ hm
        have hma : m ≤ a := by
          rcases List.mem_cons.mp hmem with rfl | h
          · exact le_rfl
          · exact le_of_lt (harest m h)
        exact ⟨by omega, by omega⟩
      · have hl := inv.lenL
        simp only [List.length_cons] at hl ⊢
        omega
      · simp only [List.map_cons]
        refine ⟨⟨htr, ?_⟩, haxtail⟩
        exact axSh_resolve (hdist a (by omega) 0 (by omega)) htr
      · have hAne : A ≠ A0 ps := wrap_ne_A0 hN hdist hedge horig hB
        simp [bool_ne_not hAne]
    · -- the wrap edge turns a corner: keep ps.length - 1
      have hBA : B = !A := bool_ne_not (fun h => hAB h.symm)
      have hsh : shareB (coordAt ps 0) (coordAt ps a) = false := by
        refine two_axis_noshare (A := A) (axSh_symm hA) (fun hh => hA' (axSh_symm hh)) ?_ ?_
        · rw [← hBA]
          exact hB
        · rw [← hBA]
          exact hB'
      have hcondF : ((getNode ar 0).x == (getNode ar a).x ||
          (getNode ar 0).y == (getNode ar a).y) = false := by
        rw [(inv.coords 0).1, (inv.coords 0).2, (inv.coords a).1, (inv.coords a).2]
        exact hsh
      rw [if_neg (show ¬_ from by rw [hcondF]; simp)]
      have hpt : point2DEq (getNode ar 0)
          { x := (coordAt ps 0).1, y := (coordAt ps 0).2 } = true := by
        simp [point2DEq, (inv.coords 0).1, (inv.coords 0).2]
      rw [if_pos hpt]
      refine ⟨ar, (ps.length - 1) :: a :: rest, B :: A :: axes', rfl, ?_⟩
      refine ⟨inv.lenAr, inv.coords, ⟨hnj, inv.pz, inv.linked⟩, ?_, ?_, ?_, ?_, ?_, ?_, ?_⟩
      · rw [List.getLast?_cons_cons]
        exact inv.lastz
      · intro m hm
        have hx' : m = ps.length - 1 ∨ m ∈ (a :: rest).dropLast := by
          simpa [List.dropLast] using hm
        rcases hx' with rfl | hm'
        · exact ⟨by omega, inv.jlt⟩
        · have hpwa : (a :: rest).Pairwise (fun x y => x > y) := (List.pairwise_cons.mp hpw).2
          have hm0 := pairwise_dropLast_getLast (a :: rest) 0 hpwa inv.lastz m hm'
          have hmem : m ∈ a :: rest := List.dropLast_subset _ hm'
          have hma : m ≤ a := by
            rcases List.mem_cons.mp hmem with rfl | h
            · exact le_rfl
            · exact le_of_lt (harest m h)
          exact ⟨by omega, by omega⟩
      · have hl := inv.lenL
        simp only [List.length_cons] at hl ⊢
        omega
      · simp only [List.map_cons]
        exact ⟨⟨axSh_symm hB, fun hh => hB' (axSh_symm hh)⟩, ⟨hA, hA'⟩, haxtail⟩
      · refine List.chain'_cons.mpr ⟨?_, inv.alt⟩
        rw [hBA, Bool.not_not]
      · rw [List.getLast?_cons_cons]
        exact inv.axbot
      · have hBne : B ≠ A0 ps := wrap_ne_A0 hN hdist hedge horig hB
        simp [bool_ne_not hBne]
  | d + 1, j, a, rest, axes, ar, harith, inv => by
    have haxm := inv.ax
    simp only [List.map_cons] at haxm
    cases axes with
    | nil => exact haxm.elim
    | cons A axes' =>
    obtain ⟨⟨hA, hA'⟩, haxtail⟩ := haxm
    have hnj := inv.untN j le_rfl inv.jlt
    have hpj : (getNode ar j).prev = some a := inv.linked.2.1
    have hpw : (j :: a :: rest).Pairwise (fun x y => x > y) := chain_gt_pairwise _ inv.desc
    have hja : j > a := (List.pairwise_cons.mp hpw).1 a (by simp)
    have harest : ∀ m ∈ rest, a > m := (List.pairwise_cons.mp (List.pairwise_cons.mp hpw).2).1
    have hjlt1 : j + 1 < ps.length := by omega
    have hsucc : succIdx ps.length j = j + 1 := by rw [succIdx, if_neg (by omega)]
    rw [hsucc] at hnj
    have hedgej : shareB (coordAt ps j) (coordAt ps (j + 1)) = true := by
      have h := hedge j inv.jlt
      rwa [hsucc] at h
    have hjne : coordAt ps j ≠ coordAt ps (j + 1) := hdist (j + 1) hjlt1 j (by omega)
    obtain ⟨B, hB, hB'⟩ := pick_axis hedgej hjne
    rw [optimizeGo_step hnj hpj]
    by_cases hAB : A = B
    · -- the next edge continues the run: splice out j
      subst hAB
      have htr : axSh A (coordAt ps (j + 1)) (coordAt ps a) := axSh_trans (axSh_symm hB) hA
      have hsh : shareB (coordAt ps (j + 1)) (coordAt ps a) = true := by
        rw [shareB_true_iff]
        cases A
        · exact Or.inr htr
        · exact Or.inl htr
      have hcondT : ((getNode ar (j + 1)).x == (getNode ar a).x ||
          (getNode ar (j + 1)).y == (getNode ar a).y) = true := by
        rw [(inv.coords (j + 1)).1, (inv.coords (j + 1)).2,
          (inv.coords a).1, (inv.coords a).2]
        exact hsh
      rw [if_pos hcondT]
      have halen : a < ar.length := by
        rw [inv.lenAr]
        omega
      have hxlens : j + 1 < (setNext ar a (some (j + 1))).length := by
        rw [length_setNext, inv.lenAr]
        omega
      have hanex : a ≠ j + 1 := by omega
      set ar' := setPrev (setNext ar a (some (j + 1))) (j + 1) (some a) with har'
      have hsa : getNode ar' a = { getNode ar a with next := some (j + 1) } := by
        rw [har', getNode_setPrev_other hanex, getNode_setNext_self halen]
      have hsx : getNode ar' (j + 1) =
          { getNode ar (j + 1) with prev := some a } := by
        rw [har', getNode_setPrev_self hxlens, getNode_setNext_other (Ne.symm hanex)]
      have hsn : ∀ m, m ≠ a → m ≠ j + 1 → getNode ar' m = getNode ar m := fun m h1 h2 => by
        rw [har', getNode_setPrev_other h2, getNode_setNext_other h1]
      have hco' : ∀ m, (getNode ar' m).x = (coordAt ps m).1 ∧
          (getNode ar' m).y = (coordAt ps m).2 := by
        intro m
        by_cases h1 : m = a
        · rw [h1, hsa]
          exact inv.coords a
        · by_cases h2 : m = j + 1
          · subst h2
            rw [hsx]
            exact inv.coords (j + 1)
          · rw [hsn m h1 h2]
            exact inv.coords m
      have hpt : point2DEq (getNode ar' (j + 1))
          { x := (coordAt ps 0).1, y := (coordAt ps 0).2 } = false := by
        simp only [point2DEq, (hco' (j + 1)).1, (hco' (j + 1)).2]
        exact pair_beq_false (hdist (j + 1) hjlt1 0 (by omega)).symm
      rw [if_neg (show ¬_ from by rw [hpt]; simp)]
      refine pass1_go ps hN hdist hedge horig d (j + 1) a rest (A :: axes') ar'
        (by omega) ?_
      have hpwa : (a :: rest).Pairwise (fun x y => x > y) := (List.pairwise_cons.mp hpw).2
      refine ⟨?_, hco', by omega, hjlt1, ⟨?_, ?_, ?_⟩, inv.lastz, ?_, ?_, ?_, ?_, ?_, ?_,
        inv.alt, inv.axbot⟩
      · rw [har', length_setPrev, length_setNext]
        exact inv.lenAr
      · rw [hsa]
      · rw [hsx]
      · refine revLinked_stable (a :: rest) inv.linked.2.2 ?_ ?_
        · intro m hm
          rw [hsn m (by have := harest m hm; omega) (by have := harest m hm; omega)]
        · intro m hm
          have hmem : m ∈ a :: rest := List.dropLast_subset _ hm
          have hma : m ≤ a := by
            rcases List.mem_cons.mp hmem with rfl | h
            · exact le_rfl
            · exact le_of_lt (harest m h)
          by_cases h1 : m = a
          · rw [h1, hsa]
          · rw [hsn m h1 (by omega)]
      · refine List.chain'_cons.mpr ⟨by omega, (List.chain'_cons.mp inv.desc).2⟩
      · have hl := inv.lenL
        simp only [List.length_cons] at hl ⊢
        omega
      · intro m h1 h2
        by_cases hx : m = j + 1
        · subst hx
          rw [hsx]
          exact inv.untN (j + 1) (by omega) h2
        · rw [hsn m (by omega) hx]
          exact inv.untN m (by omega) h2
      · intro m h1 h2
        rw [hsn m (by omega) (by omega)]
        exact inv.untP m (by omega) h2
      · by_cases h1 : a = 0
        · subst h1
          rw [hsa]
          exact inv.pz
        · rw [hsn 0 (Ne.symm h1) (by omega)]
          exact inv.pz
      · simp only [List.map_cons]
        refine ⟨⟨htr, ?_⟩, haxtail⟩
        exact axSh_resolve (hdist (j + 1) hjlt1 a (by omega)).symm htr
    · -- the next edge turns a corner: keep j
      have hBA : B = !A := bool_ne_not (fun h => hAB h.symm)
      have hsh : shareB (coordAt ps (j + 1)) (coordAt ps a) = false := by
        refine two_axis_noshare (A := A) (axSh_symm hA) (fun hh => hA' (axSh_symm hh)) ?_ ?_
        · rw [← hBA]
          exact hB
        · rw [← hBA]
          exact hB'
      have hcondF : ((getNode ar (j + 1)).x == (getNode ar a).x ||
          (getNode ar (j + 1)).y == (getNode ar a).y) = false := by
        rw [(inv.coords (j + 1)).1, (inv.coords (j + 1)).2,
          (inv.coords a).1, (inv.coords a).2]
        exact hsh
      rw [if_neg (show ¬_ from by rw [hcondF]; simp)]
      have hpt : point2DEq (getNode ar (j + 1))
          { x := (coordAt ps 0).1, y := (coordAt ps 0).2 } = false := by
        simp only [point2DEq, (inv.coords (j + 1)).1, (inv.coords (j + 1)).2]
        exact pair_beq_false (hdist (j + 1) hjlt1 0 (by omega)).symm
      rw [if_neg (show ¬_ from by rw [hpt]; simp)]
      refine pass1_go ps hN hdist hedge horig d (j + 1) j (a :: rest) (B :: A :: axes') ar
        (by omega) ?_
      refine ⟨inv.lenAr, inv.coords, by omega, hjlt1, ⟨hnj, ?_, inv.linked⟩, ?_, ?_, ?_,
        ?_, ?_, inv.pz, ?_, ?_, ?_⟩
      · have h := inv.untP (j + 1) (by omega) hjlt1
        simpa using h
      · rw [List.getLast?_cons_cons]
        exact inv.lastz
      · exact List.chain'_cons.mpr ⟨by omega, inv.desc⟩
      · have hl := inv.lenL
        simp only [List.length_cons] at hl ⊢
        omega
      · intro m h1 h2
        exact inv.untN m (by omega) h2
      · intro m h1 h2
        exact inv.untP m (by omega) h2
      · simp only [List.map_cons]
        exact ⟨⟨axSh_symm hB, fun hh => hB' (axSh_symm hh)⟩, ⟨hA, hA'⟩, haxtail⟩
      · refine List.chain'_cons.mpr ⟨?_, inv.alt⟩
        rw [hBA, Bool.not_not]
      · rw [List.getLast?_cons_cons]
        exact inv.axbot

theorem bool_flip {a b : Bool} (h : b = !a) : a = !b := by
  cases a <;> cases b <;> simp_all

/-- C6 (amended): the loop simplifier is idempotent on every well-formed loop
whose nodes have pairwise distinct coordinates, whose edges (including the
closing edge) are axis-aligned, and whose origin is a corner (its two
neighbours share no coordinate axis): one pass terminates, and a second pass
returns the arena of the first pass unchanged.  As literally stated the claim
is false (`c6_counterexample`): a loop that revisits a coordinate — which the
tracer's split vertices produce — breaks idempotence. -/
theorem c6_amended_optimize_idempotent (ps : List (Nat × Nat)) (hN : 3 ≤ ps.length)
    (hdist : ∀ j, j < ps.length → ∀ i, i < j → coordAt ps i ≠ coordAt ps j)
    (hedge : ∀ i, i < ps.length →
      shareB (coordAt ps i) (coordAt ps (succIdx ps.length i)) = true)
    (horig : shareB (coordAt ps 1) (coordAt ps (ps.length - 1)) = false) :
    ∃ ar1, optimize (mkLoop ps) 0 = some ar1 ∧ optimize ar1 0 = some ar1 := by
  have hmul : ps.length + 1 ≤ (ps.length + 1) * (ps.length + 1) :=
    Nat.le_mul_of_pos_left (ps.length + 1) (by omega)
  -- coordinates of the fresh arena
  have hco0 : ∀ m, (getNode (mkLoop ps) m).x = (coordAt ps m).1 ∧
      (getNode (mkLoop ps) m).y = (coordAt ps m).2 := by
    intro m
    by_cases h : m < ps.length
    · rw [getNode_mkLoop h]
      exact ⟨rfl, rfl⟩
    · rw [getNode_mkLoop_ge (by omega), coordAt_ge (by omega)]
      exact ⟨rfl, rfl⟩
  have hsucc0 : succIdx ps.length 0 = 1 := by rw [succIdx, if_neg (by omega)]
  have hn0 : (getNode (mkLoop ps) 0).next = some 1 := by
    rw [getNode_mkLoop (by omega)]
    simp [hsucc0]
  have hp0 : (getNode (mkLoop ps) 0).prev = some (ps.length - 1) := by
    rw [getNode_mkLoop (by omega)]
    simp
  -- the origin-processing step of pass one
  have hA0s := A0_spec (by have h := hedge 0 (by omega); rwa [hsucc0] at h)
    (hdist 1 (by omega) 0 (by omega))
  have hinv : Inv1 ps (mkLoop ps) 1 0 [] [A0 ps] := by
    refine ⟨length_mkLoop ps, hco0, le_rfl, by omega, ⟨hn0, ?_, trivial⟩, by simp, ?_, by simp,
      ?_, ?_, ?_, ?_, ?_, by simp⟩
    · rw [getNode_mkLoop (by omega)]
      simp
    · exact List.chain'_cons.mpr ⟨by omega, List.chain'_singleton _⟩
    · intro m h1 h2
      rw [getNode_mkLoop h2]
    · intro m h1 h2
      rw [getNode_mkLoop h2]
      simp [show m ≠ 0 by omega]
    · rw [getNode_mkLoop (by omega)]
      simp
    · simp only [List.map_cons, List.map_nil]
      exact ⟨⟨axSh_symm hA0s.1, fun hh => hA0s.2 (axSh_symm hh)⟩, trivial⟩
    · exact List.chain'_singleton _
  obtain ⟨arF, LF, axesF, hrun, fin⟩ :=
    pass1_go ps hN hdist hedge horig (ps.length - 2) 1 0 [] [A0 ps] (mkLoop ps)
      (by omega) hinv
  obtain ⟨F, hF⟩ : ∃ F, (ps.length + 1) * (ps.length + 1) = F + 1 :=
    ⟨(ps.length + 1) * (ps.length + 1) - 1, by omega⟩
  have hrunF : optimizeGo (coordAt ps 0).1 (coordAt ps 0).2 F (mkLoop ps) 1 = some arF :=
    optimizeGo_mono _ hrun (by omega)
  have hpass1 : optimize (mkLoop ps) 0 = some arF := by
    rw [optimize, (hco0 0).1, (hco0 0).2, length_mkLoop, hF, optimizeGo_step hn0 hp0]
    have hcondF : ((getNode (mkLoop ps) 1).x == (getNode (mkLoop ps) (ps.length - 1)).x ||
        (getNode (mkLoop ps) 1).y == (getNode (mkLoop ps) (ps.length - 1)).y) = false := by
      rw [(hco0 1).1, (hco0 1).2, (hco0 (ps.length - 1)).1, (hco0 (ps.length - 1)).2]
      exact horig
    rw [if_neg (show ¬_ from by rw [hcondF]; simp)]
    have hpt : point2DEq (getNode (mkLoop ps) 1)
        { x := (coordAt ps 0).1, y := (coordAt ps 0).2 } = false := by
      simp only [point2DEq, (hco0 1).1, (hco0 1).2]
      exact pair_beq_false (hdist 1 (by omega) 0 (by omega)).symm
    rw [if_neg (show ¬_ from by rw [hpt]; simp)]
    exact hrunF
  -- pass two
  obtain ⟨ys, hys⟩ := List.getLast?_eq_some_iff.mp fin.lastz
  cases LF with
  | nil => simp at hys
  | cons kl lrest =>
  cases axesF with
  | nil =>
    have h := fin.axhead
    simp at h
  | cons Af axrest =>
  have hAf : Af = !A0 ps := by
    have h := fin.axhead
    simpa using h
  have haxm := fin.ax
  simp only [List.map_cons] at haxm
  obtain ⟨⟨hh, hh'⟩, _⟩ := haxm
  have hlast2 : ((0 :: kl :: lrest).map (coordAt ps)).getLast? = some (coordAt ps 0) := by
    rw [List.getLast?_map]
    have h : (0 :: kl :: lrest).getLast? = some 0 := by
      rw [List.getLast?_cons_cons]
      exact fin.lastz
    rw [h]
    rfl
  have hsnoc := axchain_snoc1 ((0 :: kl :: lrest).map (coordAt ps)) (Af :: axrest)
    (coordAt ps 0) (coordAt ps kl) Af fin.ax hlast2 hh hh'
  have halt2 : ((Af :: axrest) ++ [Af]).Chain' (fun x y => y = !x) := by
    rw [List.chain'_append]
    refine ⟨fin.alt, List.chain'_singleton _, ?_⟩
    intro x hx y hy
    simp at hy
    subst hy
    have hx2 : A0 ps = x := by
      have h := fin.axbot
      rw [h] at hx
      simpa using hx
    rw [← hx2]
    exact hAf
  have haxrev := axchain_reverse _ _ hsnoc
  have haltrev : ((Af :: axrest) ++ [Af]).reverse.Chain' (fun x y => y = !x) := by
    rw [List.chain'_reverse]
    exact halt2.imp (fun a b h => bool_flip h)
  have hcornrev := axchain_corners _ _ haxrev haltrev
  obtain ⟨W, hWdef⟩ : ∃ W, W = ys.reverse ++ [0] := ⟨_, rfl⟩
  have hWrev : (0 :: kl :: lrest).reverse = 0 :: W := by
    rw [show (kl :: lrest) = ys ++ [0] from hys, hWdef]
    simp
  have hfwd0 : fwdLinked arF (0 :: W) := by
    have h := revLinked_reverse _ fin.linked
    rwa [hWrev] at h
  have hfwd : fwdLinked arF (kl :: 0 :: W) := ⟨fin.linked.1, fin.linked.2.1, hfwd0⟩
  have hcornW : noCornerSplice ((kl :: 0 :: W).map (coordAt ps)) := by
    have hl2 : ((0 :: kl :: lrest) ++ [kl]).reverse = kl :: 0 :: W := by
      rw [List.reverse_append, hWrev]
      rfl
    have h := hcornrev
    rw [show (List.map (coordAt ps) (0 :: kl :: lrest) ++ [coordAt ps kl]) =
        List.map (coordAt ps) ((0 :: kl :: lrest) ++ [kl]) from by simp] at h
    rw [← List.map_reverse, hl2] at h
    exact h
  have hWlast : W.getLast? = some 0 := by
    rw [hWdef]
    exact List.getLast?_concat _
  have hWmid : ∀ v ∈ W.dropLast, coordAt ps v ≠ coordAt ps 0 := by
    intro v hv
    rw [hWdef, List.dropLast_concat] at hv
    have hv' : v ∈ ys := List.mem_reverse.mp hv
    have hlf : (kl :: lrest).dropLast = ys := by
      rw [show (kl :: lrest) = ys ++ [0] from hys, List.dropLast_concat]
    have hm := fin.mids v (by rw [hlf]; exact hv')
    exact (hdist v (by omega) 0 (by omega)).symm
  have hfuel : W.length + 1 ≤ (ps.length + 1) * (ps.length + 1) := by
    have hlen : W.length = (kl :: lrest).length := by
      rw [hWdef, show (kl :: lrest) = ys ++ [0] from hys]
      simp
    have hlf := fin.lenLF
    omega
  have hpass2 : optimize arF 0 = some arF := by
    rw [optimize, (fin.coords 0).1, (fin.coords 0).2, fin.lenAr]
    exact pass2_go ps W kl 0 _ arF hfuel fin.coords hfwd hcornW hWlast hWmid
  exact ⟨arF, hpass1, hpass2⟩

/-- Witness for the amended C6 theorem on `rectMidPs`. -/
theorem c6_amended_optimize_idempotent_witness :
    3 ≤ rectMidPs.length ∧
    (∀ j, j < rectMidPs.length → ∀ i, i < j → coordAt rectMidPs i ≠ coordAt rectMidPs j) ∧
    (∀ i, i < rectMidPs.length →
      shareB (coordAt rectMidPs i) (coordAt rectMidPs (succIdx rectMidPs.length i)) = true) ∧
    shareB (coordAt rectMidPs 1) (coordAt rectMidPs (rectMidPs.length - 1)) = false ∧
    ∃ ar1, optimize (mkLoop rectMidPs) 0 = some ar1 ∧ optimize ar1 0 = some ar1 :=
  ⟨by decide, by decide, by decide, by decide,
    c6_amended_optimize_idempotent rectMidPs (by decide) (by decide) (by decide) (by decide)⟩

end Pixvg
